import Mathlib

abbrev Txt := List Char

/-- The character `{`. -/
def lbr : Char := Char.ofNat 123

/-- The character `}`. -/
def rbr : Char := Char.ofNat 125

/-- The compute-cell opening delimiter (three `lbr`). -/
def openDelim : Txt := [lbr, lbr, lbr]

/-- The four characters: newline then three `rbr` (the string searched for by
`text[i:].find` in extract_first_compute_cell for the closing delimiter). -/
def closeNl : Txt := ['\n', rbr, rbr, rbr]

/-- The four characters: newline then three slashes (the output separator
searched for by extract_first_compute_cell). -/
def sepNl : Txt := ['\n', '/', '/', '/']

/-- Python str whitespace (the characters stripped by str.strip()). -/
def pyIsSpace (c : Char) : Bool :=
  c = ' ' ∨ c = '\t' ∨ c = '\n' ∨ c = '\r' ∨ c = Char.ofNat 11 ∨ c = Char.ofNat 12

/-- Python str.lstrip(). -/
def lstrip (t : Txt) : Txt := t.dropWhile pyIsSpace

/-- Python str.rstrip(). -/
def rstrip (t : Txt) : Txt := (lstrip t.reverse).reverse

/-- Python str.strip(). -/
def strip (t : Txt) : Txt := rstrip (lstrip t)

/-- Python slice t[a:b] for nonnegative indices (clamping as Python does). -/
def pySlice (t : Txt) (a b : Nat) : Txt := (t.drop a).take (b - a)

/-- Python s.find(pat): index of the first occurrence of pat, None for -1. -/
def findSub (pat : Txt) : Txt → Option Nat
  | [] => if pat.isPrefixOf ([] : Txt) then some 0 else none
  | c :: rest =>
    if pat.isPrefixOf (c :: rest) then some 0
    else (findSub pat rest).map (· + 1)

/-- Python s.split(sep) for a single-character separator (empty parts kept). -/
def splitOnChar (sep : Char) : Txt → List Txt
  | [] => [[]]
  | c :: rest =>
    match splitOnChar sep rest with
    | [] => [[c]]
    | h :: t => if c = sep then [] :: h :: t else (c :: h) :: t

/-- Values stored in cell metadata and used as cell ids: Python ints or strings. -/
inductive PyVal where
  | int (n : Int)
  | str (s : Txt)
deriving DecidableEq, Repr

/-- Numeric value of a list of decimal digit characters. -/
def digitsVal (t : Txt) : Nat := t.foldl (fun a c => a * 10 + (c.toNat - 48)) 0

/-- Evaluation of an integer literal (an optionally signed run of decimal
digits), `none` when the text is not of that shape.  This models the only
successful outcomes of the `eval(b)` call in `dictify` that the worksheet
format relies on; any other value of `b` is kept as a raw string by the
`except` clause, which `evalLit` mirrors by returning `none` here. -/
def parseIntLit : Txt → Option Int
  | [] => none
  | c :: rest =>
    if c = '-' then
      if rest ≠ [] ∧ rest.all Char.isDigit then some (-(digitsVal rest : Int)) else none
    else if c = '+' then
      if rest ≠ [] ∧ rest.all Char.isDigit then some (digitsVal rest) else none
    else if (c :: rest).all Char.isDigit then some (digitsVal (c :: rest)) else none

/-- The value half of a `key=value` metadata pair: `eval(b)` falling back to
the raw string (see `dictify` in sagenb/util/text.py). -/
def evalLit (b : Txt) : PyVal :=
  match parseIntLit b with
  | some n => PyVal.int n
  | none => PyVal.str b

/-- Cell metadata: a Python dict built from a list of key/value pairs. -/
abbrev Meta := List (Txt × PyVal)

/-- Builds the pair list of `dictify`; `none` models the ValueError raised when
some comma-separated component does not split into exactly `a=b`. -/
def dictifyPairs : List Txt → Option Meta
  | [] => some []
  | v :: rest =>
    match splitOnChar '=' (strip v), dictifyPairs rest with
    | [a, b], some w => some ((a, evalLit b) :: w)
    | _, _ => none

/-- dictify from sagenb/util/text.py: parses a string like `in=5, out=7` into a
dict; a ValueError while unpacking some pair yields the empty dict.  (The
`except TypeError` guard at the call site in extract_first_compute_cell can
never fire, as every key here is a string; the function is total in the
model.) -/
def dictify (s : Txt) : Meta :=
  (dictifyPairs (splitOnChar ',' s)).getD []

/-- Python dict lookup (last duplicate key wins, as in dict(list-of-pairs)). -/
def dictGet (m : Meta) (k : Txt) : Option PyVal :=
  (m.reverse.find? (fun p => p.1 == k)).map (·.2)

/-- The metadata key for cell ids. -/
def idKey : Txt := ['i', 'd']

/-- extract_text_before_first_compute_cell from sagenb/util/text.py:
everything in text up to the first opening delimiter. -/
def extractTextBeforeFirstComputeCell (text : Txt) : Txt :=
  match findSub openDelim text with
  | none => text
  | some i => text.take i

/-- extract_first_compute_cell from sagenb/util/text.py.  Returns
(meta, input, output, end); `none` models the raised EOFError.  Mirrors the
source: EOFError is raised when no opening delimiter is found, or when no
newline follows the position of the opening delimiter; a missing closing
delimiter instead sets the end of the block to `len(text)`. -/
def extractFirstComputeCell (text : Txt) : Option (Meta × Txt × Txt × Nat) :=
  match findSub openDelim text with
  | none => none
  | some i =>
    match findSub ['\n'] (text.drop i) with
    | none => none
    | some j =>
      let mi : Meta × Nat :=
        match findSub ['|'] (text.drop i) with
        | some k =>
          if k < j then (dictify (pySlice text (i + 3) (i + k)), i + k + 1)
          else ([], i + 3)
        | none => ([], i + 3)
      let meta := mi.1
      let i2 := mi.2
      let j2 : Nat :=
        match findSub closeNl (text.drop i2) with
        | none => text.length
        | some j => j + i2
      match findSub sepNl (text.drop i2) with
      | none => some (meta, strip (pySlice text i2 j2), [], j2 + 4)
      | some k =>
        if i2 + k > j2 then some (meta, strip (pySlice text i2 j2), [], j2 + 4)
        else some (meta, strip (strip (pySlice text i2 (i2 + k))),
                   pySlice text (i2 + k + 4) j2, j2 + 4)

/-- One parsed item of the edit_save loop: a plain (text-cell) block or a
compute block. -/
inductive DataItem where
  | plain (txt : Txt)
  | compute (meta : Meta) (inp out : Txt)
deriving DecidableEq, Repr

/-- The parse loop of Worksheet.edit_save, with fuel (each iteration consumes
at least four characters of `text`, see parseDataGo_fuel). -/
def parseDataGo : Nat → Txt → List DataItem
  | 0, _ => []
  | fuel + 1, text =>
    let plainTxt := strip (extractTextBeforeFirstComputeCell text)
    let plainItems : List DataItem := if plainTxt ≠ [] then [.plain plainTxt] else []
    match extractFirstComputeCell text with
    | none => plainItems
    | some (meta, inp, out, i) =>
      plainItems ++ DataItem.compute meta inp out :: parseDataGo fuel (text.drop i)

/-- The `data` list built by the while-loop of Worksheet.edit_save. -/
def parseData (text : Txt) : List DataItem := parseDataGo (text.length + 1) text

/-- A cell of the in-memory cell list.

Modelled from the spec: the classes `Cell` and `TextCell`
(sagenb/notebook/cell.py is imported by worksheet.py but absent from the source
tree).  Per spec §3 a cell carries an id (int or string), an input and an
output (compute cells), or a plain markup body (text cells); edit_save stores
the parsed input with set_input_text and the parsed output with
set_output_text verbatim (worksheet.py doctests show out=\n5 for the parsed
output of the standard block).  The html flag of edit_save only feeds
update_html_output (rendered html), which is not part of the model. -/
inductive CellM where
  | compute (id : PyVal) (inp out : Txt)
  | textc (id : PyVal) (txt : Txt)
deriving DecidableEq, Repr

/-- The id of a cell. -/
def CellM.cid : CellM → PyVal
  | .compute i _ _ => i
  | .textc i _ => i

/-- Cell_generic.is_text_cell. -/
def CellM.isTextCell : CellM → Bool
  | .compute _ _ _ => false
  | .textc _ _ => true

/-- Cell_generic.is_compute_cell. -/
def CellM.isComputeCell : CellM → Bool
  | .compute _ _ _ => true
  | .textc _ _ => false

/-- Fueled search for the first natural number, from `i` upwards, whose
PyVal.int image is not a member of `v`. -/
def firstNotIn (v : List PyVal) : Nat → Nat → Nat
  | 0, i => i
  | fuel + 1, i => if PyVal.int i ∈ v then firstNotIn v fuel (i + 1) else i

/-- Modelled from the spec: `next_available_id` (imported by worksheet.py from
the absent sagenb/util/__init__.py).  Per spec §4.1 edit_save assigns fresh
unique ids to blocks lacking one, and per the spec §8 scenario a block without
an id receives id 0 while 10 is taken, so the function returns the smallest
nonnegative integer not in the given set of ids.  The fuel v.length + 1
suffices by pigeonhole (nextAvailableId_spec below). -/
def nextAvailableId (v : List PyVal) : Nat := firstNotIn v (v.length + 1) 0

/-- State of the cell-construction loop of Worksheet.edit_save: the `ids` set,
the `used_ids` set and the accumulated `cells` list. -/
structure BuildSt where
  ids : List PyVal
  used : List PyVal
  cells : List CellM
deriving DecidableEq, Repr

/-- The ids declared by the compute items of the parsed data (the `ids` set
initializer in Worksheet.edit_save). -/
def declaredIds (data : List DataItem) : List PyVal :=
  data.filterMap (fun d =>
    match d with
    | .compute m _ _ => dictGet m idKey
    | .plain _ => none)

/-- One step of the cell-construction loop of Worksheet.edit_save (with
ignore_ids = False, its value at every call site relevant here).  The branch
reusing an existing non-text cell object only preserves state that the
subsequent set_input_text/set_output_text overwrite, so the constructed cell
is determined by (id, input, output). -/
def buildStep (st : BuildSt) : DataItem → BuildSt
  | .plain T =>
    if T.length > 0 then
      let idn := nextAvailableId st.ids
      { ids := PyVal.int idn :: st.ids,
        used := PyVal.int idn :: st.used,
        cells := st.cells ++ [CellM.textc (PyVal.int idn) T] }
    else st
  | .compute meta inp out =>
    match dictGet meta idKey with
    | some idv =>
      if idv ∈ st.used then
        let idn := nextAvailableId st.ids
        { ids := PyVal.int idn :: st.ids,
          used := PyVal.int idn :: st.used,
          cells := st.cells ++ [CellM.compute (PyVal.int idn) inp out] }
      else
        { ids := st.ids,
          used := idv :: st.used,
          cells := st.cells ++ [CellM.compute idv inp out] }
    | none =>
      let idn := nextAvailableId st.ids
      { ids := PyVal.int idn :: st.ids,
        used := PyVal.int idn :: st.used,
        cells := st.cells ++ [CellM.compute (PyVal.int idn) inp out] }

/-- The cell list built by Worksheet.edit_save from the parsed data, before
the trailing-cell fixup. -/
def buildCells (data : List DataItem) : List CellM :=
  (data.foldl buildStep { ids := declaredIds data, used := [], cells := [] }).cells

/-- Worksheet.set_cell_counter: next id = 1 + max of the integer ids and -1. -/
def maxIntId (cells : List CellM) : Int :=
  cells.foldl (fun m c =>
    match c.cid with
    | .int n => max m n
    | .str _ => m) (-1)

/-- Worksheet.set_cell_counter over a cell list. -/
def setCellCounter (cells : List CellM) : Int := 1 + maxIntId cells

/-- Worksheet.edit_save: the cell list and the value of the worksheet's
next-id counter after edit_save(text).  After building the cells it runs
set_cell_counter and, if the list is empty or ends in a text cell, appends a
fresh empty compute cell through append_new_cell/_new_cell (which consumes
next_id and increments it).  The final loop clearing the output of interactive
cells is a no-op here: freshly constructed cells are not interactive (per spec
§4.1, interactivity does not survive a reparse). -/
def editSaveResult (text : Txt) : List CellM × Int :=
  let data := parseData text
  let cells := buildCells data
  let nid := setCellCounter cells
  if cells.isEmpty ∨ ((cells.getLast?.map CellM.isTextCell).getD false) then
    (cells ++ [CellM.compute (PyVal.int nid) [] []], nid + 1)
  else
    (cells, nid)

/-- The cell list after Worksheet.edit_save(text). -/
def editSaveCells (text : Txt) : List CellM := (editSaveResult text).1

/-- The value Worksheet.next_id() returns after Worksheet.edit_save(text). -/
def editSaveNextId (text : Txt) : Int := (editSaveResult text).2

/-- Decimal digits of a natural number (with fuel; natToTxt supplies n + 1,
which is enough since n / 10 decreases). -/
def natToTxtGo : Nat → Nat → Txt
  | 0, _ => []
  | f + 1, n =>
    if n < 10 then [Char.ofNat (48 + n)]
    else natToTxtGo f (n / 10) ++ [Char.ofNat (48 + n % 10)]

/-- Decimal representation of a natural number. -/
def natToTxt (n : Nat) : Txt := natToTxtGo (n + 1) n

/-- Python str() of an integer. -/
def intToTxt (n : Int) : Txt :=
  if n < 0 then '-' :: natToTxt n.natAbs else natToTxt n.toNat

/-- The text form of a cell id as interpolated by %s: str() of the value. -/
def pyValText : PyVal → Txt
  | .int n => intToTxt n
  | .str s => s

/-- Modelled from the spec: Cell.edit_text and TextCell.edit_text
(sagenb/notebook/cell.py is absent from the source tree).  Per spec §6 a
compute cell serializes between triple-brace delimiters with its id metadata
header before a pipe and a triple-slash output separator line, and a text cell
serializes verbatim; per spec §4.1/§8 serialization is the normalizing half of
a round-trip that is idempotent after the first pass, so the input and output
are emitted in stripped (normalized) form. -/
def cellEditText : CellM → Txt
  | .textc _ txt => txt
  | .compute i inp out =>
    openDelim ++ idKey ++ ['='] ++ pyValText i ++ ['|', '\n'] ++ strip inp ++
      sepNl ++ ['\n'] ++ strip out ++ closeNl

/-- Worksheet.body: serializes the cell list; each nonempty stripped
edit_text block is appended after a blank line. -/
def body (cells : List CellM) : Txt :=
  cells.foldl (fun s c =>
    let t := strip (cellEditText c)
    if t = [] then s else s ++ ['\n', '\n'] ++ t) []

/-- The output text of a cell (empty for text cells). -/
def CellM.outTxt : CellM → Txt
  | .compute _ _ o => o
  | .textc _ _ => []

/-- The input text of a cell (the markup body for text cells). -/
def CellM.inpTxt : CellM → Txt
  | .compute _ i _ => i
  | .textc _ t => t

/-- A compute block that is opened and newline-terminated but never closed:
the three-brace opener, a newline, and the input x. -/
def c2Text : Txt := openDelim ++ ['\n', 'x']

/-- The markup text of the spec §8 parsing scenario. -/
def c4Text : Txt := openDelim ++ "\n2+3\n///\n5".toList ++ closeNl ++ ['\n'] ++
  openDelim ++ "id=10|\n2+8\n///\n10".toList ++ closeNl

/-- Python s.split() with no argument: splits on runs of whitespace, dropping
empty parts (fueled; each step consumes at least one character). -/
def pysplitGo : Nat → Txt → List Txt
  | 0, _ => []
  | fuel + 1, t =>
    match t.dropWhile pyIsSpace with
    | [] => []
    | c :: rest =>
      ((c :: rest).takeWhile (fun x => !(pyIsSpace x))) ::
        pysplitGo fuel ((c :: rest).dropWhile (fun x => !(pyIsSpace x)))

/-- Python s.split() with no argument. -/
def pysplit (t : Txt) : List Txt := pysplitGo (t.length + 1) t

/-- Python min(len(x) for x in completions) over a nonempty list. -/
def minLen : List Txt → Nat
  | [] => 0
  | c :: rest => rest.foldl (fun a x => min a x.length) c.length

/-- The while-loop of Worksheet.best_completion (fueled; the loop runs for at
most m + 1 - n iterations).  Mirrors the source: at index i it compares every
other candidate against completions[0][:i]; on the first divergence it returns
w[n:i-1] (the i = 0 divergence case is unreachable: empty takes always agree),
on exhaustion it returns completions[0][n:m]. -/
def bcGo (cs : List Txt) (c0 : Txt) (n m : Nat) : Nat → Nat → Txt
  | _, 0 => (c0.drop n).take (m - n)
  | i, fuel + 1 =>
    if i ≤ m then
      match cs.find? (fun w => w.take i != c0.take i) with
      | some w => (w.drop n).take (i - 1 - n)
      | none => bcGo cs c0 n m (i + 1) fuel
    else (c0.drop n).take (m - n)

/-- Worksheet.best_completion from sagenb/notebook/worksheet.py: given the
space-separated candidate list s and the word being completed, the longest
common extension of the candidates past the length of the word. -/
def bestCompletion (s word : Txt) : Txt :=
  match pysplit s with
  | [] => []
  | c0 :: rest =>
    let n := word.length
    let m := minLen (c0 :: rest)
    bcGo rest c0 n m n (m + 2)

/-- Longest common prefix of two lists. -/
def lcp2 : Txt → Txt → Txt
  | [], _ => []
  | _ :: _, [] => []
  | a :: as, b :: bs => if a = b then a :: lcp2 as bs else []

/-- Longest common prefix of all members of a list of candidates. -/
def listLcp : List Txt → Txt
  | [] => []
  | c :: cs => cs.foldl lcp2 c

/-- A single quote character (kept out of string literals). -/
def sglq : Char := Char.ofNat 39

/-- Python index normalization for slicing: negative indices count from the
end and indices clamp to [0, len]. -/
def pyNormIdx (len : Nat) (i : Int) : Nat :=
  if i < 0 then (max 0 ((len : Int) + i)).toNat else min i.toNat len

/-- Python t[a:] with a possibly negative start. -/
def pyDropI (t : Txt) (a : Int) : Txt := t.drop (pyNormIdx t.length a)

/-- Python t[a:b] with possibly negative bounds. -/
def pySliceI (t : Txt) (a b : Int) : Txt :=
  (t.take (pyNormIdx t.length b)).drop (pyNormIdx t.length a)

/-- Python l[i] for lists, with negative indexing; `none` is an IndexError. -/
def pyListGet {α : Type} (l : List α) (i : Int) : Option α :=
  let j : Int := if i < 0 then (l.length : Int) + i else i
  if 0 ≤ j ∧ j < (l.length : Int) then l.get? j.toNat else none

/-- Python int(): parse of a stripped optionally signed run of digits. -/
def pyIntParse (t : Txt) : Option Int := parseIntLit (strip t)

/-- Python s.replace(pat, rep) for a nonempty pat (fueled; each step consumes
at least one character past the match). -/
def replaceAllGo : Nat → Txt → Txt → Txt → Txt
  | 0, _, _, t => t
  | fuel + 1, pat, rep, t =>
    match findSub pat t with
    | none => t
    | some i => t.take i ++ rep ++ replaceAllGo fuel pat rep (t.drop (i + pat.length))

/-- Python s.replace(pat, rep). -/
def replaceAll (pat rep t : Txt) : Txt := replaceAllGo (t.length + 1) pat rep t

/-- UN_PUB from sagewui/config.py: the user name owning published worksheets. -/
def unPub : Txt := "pub".toList

/-- TRACEBACK from sagewui/config.py. -/
def tracebackMarker : Txt := "Traceback (most recent call last):".toList

/-- Modelled from the spec: the mutable compute/text cell object of
sagenb/notebook/cell.py (absent from the source tree), restricted to the
state the worksheet scheduler reads and writes.  Fields follow spec §3:
id, input, output, system override, and the is_compute/asap/auto/
interrupted/no_output flags, plus the introspection split; cleanedInp models
cleaned_input_text() (the input with percent directives removed — equal to
the input when, as in every claim here, no directives are present),
percentDirectives models percent_directives(), beforePreparse and codeId are
the _before_preparse/code_id attributes assigned by start_next_comp, and
wsRef identifies the owning worksheet (C.worksheet()). -/
structure WCell where
  cid : PyVal
  inp : Txt
  out : Txt
  isCompute : Bool
  asap : Bool
  auto : Bool
  interrupted : Bool
  noOutput : Bool
  introspect : Option (Txt × Txt)
  changedInput : Txt
  introspectHtml : Txt
  completionRows : List (List Txt)
  wordBeingCompleted : Option Txt
  evalMethodIntrospect : Bool
  system : Option Txt
  percentDirectives : List Txt
  cleanedInp : Txt
  timeFlag : Bool
  beforePreparse : Txt
  codeId : Nat
  wsRef : Nat
deriving DecidableEq, Repr

/-- A fresh compute or text cell as built by edit_save (Cell.__init__ /
TextCell.__init__ with the given id, input and output; all flags clear). -/
def toWCell (wsRef : Nat) : CellM → WCell
  | .compute i inp out =>
    { cid := i, inp := inp, out := out, isCompute := true, asap := false,
      auto := false, interrupted := false, noOutput := false, introspect := none,
      changedInput := [], introspectHtml := [], completionRows := [],
      wordBeingCompleted := none, evalMethodIntrospect := false, system := none,
      percentDirectives := [], cleanedInp := inp, timeFlag := false,
      beforePreparse := [], codeId := 0, wsRef := wsRef }
  | .textc i txt =>
    { cid := i, inp := txt, out := [], isCompute := false, asap := false,
      auto := false, interrupted := false, noOutput := false, introspect := none,
      changedInput := [], introspectHtml := [], completionRows := [],
      wordBeingCompleted := none, evalMethodIntrospect := false, system := none,
      percentDirectives := [], cleanedInp := txt, timeFlag := false,
      beforePreparse := [], codeId := 0, wsRef := wsRef }

/-- The view of a live cell used by serialization (body/edit_text). -/
def toCellM (c : WCell) : CellM :=
  if c.isCompute then CellM.compute c.cid c.inp c.out else CellM.textc c.cid c.inp

/-- The scheduler-relevant state of a Worksheet.  The live cell objects sit
in cellStore; cellList is the ordered cell list (by id) and queue the pending
computation queue (by id) — queue entries keep referring to their objects in
the store even after deletion from the cell list, mirroring the shared
mutable Cell objects of the source.  Ids are unique within a worksheet
(spec §3 invariant, claim C5), which justifies identifying a queue reference
with its id. -/
structure WS where
  owner : Txt
  selfRef : Nat
  system : Option Txt
  cellStore : List WCell
  cellList : List PyVal
  queue : List PyVal
  computing : Bool
  lastComputeTime : Option Int
  nextBlockId : Nat
  nextId : Int
  nextHiddenId : Option Int
deriving DecidableEq, Repr

/-- Worksheet.is_published: the owner is the reserved pub user. -/
def WS.isPublished (w : WS) : Bool := w.owner = unPub

/-- Worksheet.get_cell_with_id_or_none against the live object store. -/
def getCellOrNone (w : WS) (id : PyVal) : Option WCell :=
  w.cellStore.find? (fun c => c.cid = id)

/-- Point update of one cell object in the store (mutation of the shared
Cell instance). -/
def updateCell (w : WS) (id : PyVal) (f : WCell → WCell) : WS :=
  { w with cellStore := w.cellStore.map (fun c => if c.cid = id then f c else c) }

/-- Python list.insert: position clamps to the list length. -/
def pyInsert {α : Type} (l : List α) (i : Nat) (x : α) : List α :=
  l.take i ++ x :: l.drop i

/-- Python list.remove: removes the first occurrence. -/
def pyRemove (l : List PyVal) (x : PyVal) : List PyVal :=
  match l with
  | [] => []
  | y :: rest => if y = x then rest else y :: pyRemove rest x

/-- Whether the queue entry at the given position refers to an asap cell. -/
def queueEntryAsap (w : WS) (id : PyVal) : Bool :=
  ((getCellOrNone w id).map (·.asap)).getD false

/-- The errors Worksheet.enqueue can raise. -/
inductive PyErr where
  | typeError
  | valueError
deriving DecidableEq, Repr

/-- Worksheet.clear_queue: marks every queued cell interrupted and empties
the queue (and the computing flag). -/
def clearQueueW (w : WS) : WS :=
  let w1 := w.queue.foldl (fun acc id => updateCell acc id
    (fun c => { c with interrupted := true })) w
  { w1 with queue := [], computing := false }

/-- Worksheet.body over the live state (serialize the ordered cell list). -/
def wsBody (w : WS) : Txt :=
  body ((w.cellList.filterMap (getCellOrNone w)).map toCellM)

/-- Worksheet.edit_save over the live state: the cell list is rebuilt from
the parsed text (existing objects reused per id carry no state that the
set_input_text/set_output_text calls leave observable), the counter is reset
by set_cell_counter; the queue and flags are untouched. -/
def editSaveW (w : WS) (text : Txt) : WS :=
  let cells := editSaveCells text
  { w with cellStore := cells.map (toWCell w.selfRef),
           cellList := cells.map CellM.cid,
           nextId := editSaveNextId text }

/-- The effect of Worksheet.restart_sage reachable from start_next_comp on a
restart/quit/exit input: quit() terminates the process (external), saves,
clears the queue, and drops the in-memory cell list, which is lazily reloaded
from the saved body; sage() then spawns a fresh handle (external) and
re-enqueues auto cells (none in this model: the auto flag lives in the absent
cell.py and no claim involves auto cells), and the inner start_next_comp
returns at once on the emptied queue. -/
def restartSageEffect (w : WS) : WS :=
  let saved := wsBody w
  let w1 := clearQueueW w
  editSaveW w1 saved

/-- The restart keywords recognized by start_next_comp. -/
def restartKeywords : List Txt := ["restart".toList, "quit".toList, "exit".toList]

/-- Worksheet.get_cell_system: the cell's system override or the worksheet's
system.  In the source self.system may be None for a fresh worksheet; the
sage dialect is the one relevant to the modelled claims. -/
def getCellSystem (w : WS) (c : WCell) : Option Txt :=
  match c.system with
  | some s => some s
  | none => w.system

/-- The sage system name. -/
def sageSystem : Txt := "sage".toList

/-- The message set by the restart branch of start_next_comp. -/
def exitedMsg (s : Txt) : Txt := "Exited ".toList ++ s ++ " process".toList

/-- The last line of the stripped input (I.strip().split newline .pop()). -/
def lastLineOf (t : Txt) : Txt := ((splitOnChar '\n' (strip t)).getLastD [])

/-- Worksheet.start_next_comp.  Returns the updated worksheet; the handle
execution itself is the external Process Handle call.  Steps mirrored from
the source: empty queue and already-computing are no-ops; an interrupted head
is not computed; a restart/quit/exit cleaned input triggers restart_sage and
sets the Exited message on the cell; otherwise the block id is allocated,
_before_preparse is recorded, trailing-question-mark sage input switches the
cell into introspection mode, and the computing flag is raised as the code is
handed to the process (preparse_input and the execute call only affect the
external process). -/
def startNextComp (w : WS) : WS :=
  if w.queue.isEmpty then w
  else if w.computing then w
  else
    match w.queue.head? with
    | none => w
    | some cid =>
      match getCellOrNone w cid with
      | none => w
      | some C =>
        let cellSystem := getCellSystem w C
        if C.interrupted then w
        else if cellSystem = some sageSystem ∧ C.introspect.isSome then
          startExec w cid C
        else if C.cleanedInp ∈ restartKeywords then
          -- restart_sage reloads the cell list from the saved body inside
          -- quit(); the following set_output_text(Exited ...) of the source
          -- mutates the now-orphaned old cell object, which the reloaded
          -- worksheet no longer references, so it leaves no trace here.
          restartSageEffect w
        else
          startExec w cid C
where
  /-- The tail of start_next_comp, from the block-id allocation on. -/
  startExec (w : WS) (cid : PyVal) (C : WCell) : WS :=
    let bid := w.nextBlockId + 1
    let I := if getCellSystem w C = some sageSystem ∧ C.introspect.isSome then
        (C.introspect.map (·.1)).getD [] else C.cleanedInp
    let introNow :=
      getCellSystem w C = some sageSystem ∧ I ≠ [] ∧
        (lastLineOf I).getLast? = some '?' ∧ (lastLineOf I).head? ≠ some '#'
    let w1 := { w with nextBlockId := bid }
    let w2 := updateCell w1 cid (fun c =>
      let c1 := { c with codeId := bid }
      let c2 := if introNow then { c1 with introspect := some (I, []) } else c1
      { c2 with beforePreparse := interactHeader c2 ++ I })
    { w2 with computing := true }
  /-- The lines prepended to the submitted code before preparsing
  (lines 2610-2620 of worksheet.py); the %r interpolation of the id. -/
  interactHeader (c : WCell) : Txt :=
    "_interact_.SAGE_CELL_ID=".toList ++ pyValRepr c.cid ++
      "\n__SAGE_TMP_DIR__=os.getcwd()\n".toList ++
      (if c.timeFlag then "__SAGE_t__=cputime()\n__SAGE_w__=walltime()\n".toList else [])
  /-- Python repr of an id value. -/
  pyValRepr : PyVal → Txt
    | .int n => intToTxt n
    | .str s => sglq :: s ++ [sglq]

/-- Worksheet.enqueue: no-op on published worksheets; records compute
activity; raises TypeError for non-compute cells and ValueError for cells of
another worksheet; inserts asap cells after the running cell and the leading
asap run, appends normal cells; then advances the scheduler. -/
def enqueue (w : WS) (C : WCell) (now : Int) : Except PyErr WS :=
  if w.isPublished then .ok w
  else
    let w0 := { w with lastComputeTime := some now }
    if ¬ C.isCompute then .error .typeError
    else if C.wsRef ≠ w.selfRef then .error .valueError
    else
      let w1 :=
        if C.cid ∈ w0.queue then w0
        else if C.asap then
          let i0 := if w0.computing then 1 else 0
          let pos := i0 + ((w0.queue.drop i0).takeWhile (queueEntryAsap w0)).length
          { w0 with queue := pyInsert w0.queue pos C.cid }
        else
          { w0 with queue := w0.queue ++ [C.cid] }
      .ok (startNextComp w1)

/-- Worksheet.interrupt(timeout): the busy answer of the handle after the
interrupt signal and the bounded sleep. -/
structure InterruptOracle where
  busyAfter : Bool
deriving DecidableEq, Repr

/-- Worksheet.interrupt: True at once when nothing is queued; otherwise
signal the process handle, sleep up to the timeout, and report not-busy.
The queue and the rest of the worksheet state are untouched. -/
def interruptW (w : WS) (h : InterruptOracle) : Bool × WS :=
  if w.queue.isEmpty then (true, w)
  else (¬ h.busyAfter, w)

/-- Worksheet.delete_cell_with_id: finds the cell with the id in the cell
list; removes it from the queue only when it is queued and not the queue
head; deletes its output (the files are external state); removes it from the
cell list; answers the id of the preceding cell (or of the first cell).
The returned state carries the mutations even when the id answer is `none`
(the IndexError the source hits on an emptied cell list is raised after the
deletion already happened). -/
def deleteCellWithId (w : WS) (id : PyVal) : Option PyVal × WS :=
  match w.cellList.indexOf? id with
  | some i =>
    let queue1 := if id ∈ w.queue ∧ w.queue.head? ≠ some id
      then pyRemove w.queue id else w.queue
    let w1 := updateCell { w with queue := queue1 } id
      (fun c => { c with out := [] })
    let w2 := { w1 with cellList := w1.cellList.eraseIdx i }
    if i > 0 then
      (w2.cellList.get? (i - 1), w2)
    else
      (w2.cellList.head?, w2)
  | none => (w.cellList.head?, w)

/-- The output_status() answer of the worksheet process handle (spec §6). -/
structure OStatus where
  done : Bool
  output : Txt
  filenames : List Txt
deriving DecidableEq, Repr

/-- Observation of the handle during one check_comp poll: whether
output_status() raises (RuntimeError), and otherwise its answer. -/
structure HandleObs where
  statusFails : Bool
  status : OStatus
deriving DecidableEq, Repr

/-- The NameError message rewritten by postprocess_output. -/
def nameErrMsg : Txt :=
  "NameError: name ".toList ++ [sglq] ++ "os".toList ++ [sglq] ++ " is not defined".toList

/-- The text appended to the NameError message by postprocess_output. -/
def nameErrExtra : Txt :=
  ("\nTHERE WAS AN ERROR LOADING THE SAGE LIBRARIES.  " ++
   "Try starting Sage from the command line to see what the error is.").toList

/-- The line marker searched by the traceback surgery of postprocess_output. -/
def pyLinePat : Txt := ".py\", line".toList

/-- The try-block of postprocess_output: reconstructs the offending source
line from _before_preparse.  `none` models the ValueError (int parse) or
IndexError (line lookup) that the surrounding except swallows, leaving the
output unchanged. -/
def tbStep (C : WCell) (out : Txt) : Option Txt :=
  match findSub tracebackMarker out with
  | none => some out
  | some i =>
    let jI : Int := match findSub pyLinePat out with
      | none => -1
      | some v => (v : Int)
    let zI : Int := match findSub [','] (pyDropI out (jI + 5)) with
      | none => -1
      | some v => (v : Int)
    match pyIntParse (pySliceI out (jI + (pyLinePat.length : Int)) (zI + jI + 5)) with
    | none => none
    | some n =>
      let kI : Int := match findSub ['\n'] (pyDropI out jI) with
        | none => -1
        | some v => (v : Int)
      if kI != (-1 : Int) then
        let k := kI + jI
        let lI : Int := match findSub ['\n'] (pyDropI out (k + 1)) with
          | none => -1
          | some v => (v : Int)
        if lI != (-1 : Int) then
          let l := lI + k + 1
          let lines := splitOnChar '\n' C.beforePreparse
          match pyListGet lines (n - 2) with
          | none => none
          | some srcLine =>
            some (pySliceI out 0 ((i : Int) + (tracebackMarker.length : Int) + 1) ++
              "    ".toList ++ srcLine ++ pyDropI out l)
        else some out
      else some out

/-- Worksheet.postprocess_output: identity on introspection output; rewrites
the os NameError message; shrinks the traceback via tbStep,swallowing its
ValueError/IndexError. -/
def postprocessOutput (C : WCell) (out0 : Txt) : Txt :=
  if C.introspect.isSome then out0
  else
    let out := replaceAll nameErrMsg (nameErrMsg ++ nameErrExtra) out0
    match tbStep C out with
    | some out2 => out2
    | none => out

/-- Worksheet.completions_html, up to the external template rendering: the
column-major rows matrix handed to format_completions_as_html; empty for a
no-completions answer or a single candidate. -/
def completionsRows (s : Txt) : List (List Txt) :=
  if findSub "no completions of".toList s ≠ none then []
  else
    let completions := pysplit s
    let n := completions.length
    let l := n / 3 + n % 3
    if n = 1 then []
    else (List.range l).map (fun r =>
      (List.range 3).map (fun c => (completions.get? (r + l * c)).getD []))

/-- The value of one check_comp poll: 'e' (empty), 'd' (done), 'w' (working),
or the bare `return` (Python None) of the empty-before-prompt introspection
edge. -/
inductive CompStatus where
  | empty
  | done
  | working
  | noneRet
deriving DecidableEq, Repr

/-- The tail of Worksheet.check_comp for a finished computation: diffuse
introspection results into the cell, clear the computing flag, pop the
queue, and finalize or discard the output.  File moves and directory sweeps
touch only the external filesystem. -/
def checkCompDone (w : WS) (cid : PyVal) (C : WCell) (out : Txt) :
    CompStatus × Option PyVal × WS :=
  match C.introspect with
  | some (beforePrompt, afterPrompt) =>
    if C.noOutput then
      finishPop w cid C out
    else if beforePrompt = [] then
      (.noneRet, none, w)
    else
      let w1 :=
        if beforePrompt.getLast? ≠ some '?' then
          let c := match C.wordBeingCompleted with
            | some word => bestCompletion out word
            | none => []
          updateCell w cid (fun cc =>
            { cc with changedInput := beforePrompt ++ c ++ afterPrompt,
                      completionRows := completionsRows out })
        else if C.evalMethodIntrospect then
          updateCell w cid (fun cc => { cc with introspectHtml := out })
        else
          updateCell w cid (fun cc =>
            { cc with introspectHtml := [],
                      out := "<html><!--notruncate-->".toList ++ out ++
                        "</html>".toList })
      finishPop w1 cid C out
  | none => finishPop w cid C out
where
  finishPop (w : WS) (cid : PyVal) (C : WCell) (out : Txt) :
      CompStatus × Option PyVal × WS :=
    let w2 := { w with computing := false, queue := w.queue.tail }
    if C.noOutput then
      (.done, some cid, w2)
    else if C.introspect.isNone then
      (.done, some cid,
        updateCell w2 cid (fun cc => { cc with out := out, introspectHtml := [] }))
    else
      (.done, some cid, w2)

/-- Worksheet.check_comp: poll the head of the queue against the process
handle.  An empty queue answers 'e'; an interrupted head is popped as done;
a RuntimeError from output_status() clears the computing flag, immediately
reattempts scheduling, and answers working; an unfinished computation
updates the visible output (files appear as symlinks on the external
filesystem) and answers working; a finished one is finalized by
checkCompDone. -/
def checkComp (w : WS) (h : HandleObs) : CompStatus × Option PyVal × WS :=
  if w.queue.isEmpty then (.empty, none, w)
  else
    match w.queue.head? with
    | none => (.empty, none, w)
    | some cid =>
      match getCellOrNone w cid with
      | none => (.empty, none, w)
      | some C =>
        if C.interrupted then
          (.done, some cid, { w with computing := false, queue := w.queue.tail })
        else if h.statusFails then
          (.working, some cid, startNextComp { w with computing := false })
        else
          let out := postprocessOutput C h.status.output
          if ¬ h.status.done then
            let w1 := if C.introspect.isNone then
                updateCell w cid (fun c => { c with out := out })
              else w
            (.working, some cid, w1)
          else
            checkCompDone w cid C out

def mkComputeCell (idn : Nat) (inp : Txt) (asap : Bool) (wsRef : Nat) : WCell :=
  { toWCell wsRef (CellM.compute (PyVal.int idn) inp []) with asap := asap }

def c3B : WCell := mkComputeCell 1 "1+1".toList false 7

def c3A : WCell := mkComputeCell 2 "2+2".toList true 7

def c3C : WCell := mkComputeCell 3 "3+3".toList true 7

def c3W0 : WS :=
  { owner := "alice".toList, selfRef := 7, system := some sageSystem,
    cellStore := [c3B, c3A, c3C],
    cellList := [PyVal.int 1, PyVal.int 2, PyVal.int 3],
    queue := [], computing := false, lastComputeTime := none,
    nextBlockId := 0, nextId := 4, nextHiddenId := none }

def c3Run : Except PyErr WS := do
  let w1 ← enqueue c3W0 c3B 0
  let w2 ← enqueue w1 c3A 0
  enqueue w2 c3C 0

def c3Wr : WS := { c3W0 with computing := true, queue := [PyVal.int 1, PyVal.int 2] }

def c6Cell : WCell := mkComputeCell 1 "2+2".toList false 9

def c6W : WS :=
  { owner := "bob".toList, selfRef := 9, system := some sageSystem,
    cellStore := [c6Cell], cellList := [PyVal.int 1], queue := [PyVal.int 1],
    computing := true, lastComputeTime := none, nextBlockId := 1,
    nextId := 2, nextHiddenId := none }

def c6H : HandleObs :=
  { statusFails := true, status := { done := false, output := [], filenames := [] } }

def c10Cell1 : WCell := mkComputeCell 1 "1".toList false 9

def c10Cell2 : WCell := mkComputeCell 2 "2".toList false 9

def c10W : WS :=
  { owner := "bob".toList, selfRef := 9, system := some sageSystem,
    cellStore := [c10Cell1, c10Cell2], cellList := [PyVal.int 1, PyVal.int 2],
    queue := [PyVal.int 1, PyVal.int 2],
    computing := true, lastComputeTime := none, nextBlockId := 1,
    nextId := 3, nextHiddenId := none }

def c10W2 : WS := (deleteCellWithId c10W (PyVal.int 2)).2

def c9Cell : WCell :=
  { mkComputeCell 5 [] false 42 with isCompute := false }

def c9W : WS := { c6W with owner := unPub }

def BuildInv (st : BuildSt) : Prop :=
  (∀ x ∈ st.used, x ∈ st.ids) ∧
  st.cells.map CellM.cid = st.used.reverse ∧
  (st.cells.map CellM.cid).Nodup

def newCellW (w : WS) (isText : Bool) (inp : Txt) : WCell × WS :=
  let id := PyVal.int w.nextId
  let c := toWCell w.selfRef
    (if isText then CellM.textc id inp else CellM.compute id inp [])
  (c, { w with nextId := w.nextId + 1 })

def newCellBeforeW (w : WS) (isText : Bool) (id : PyVal) (inp : Txt) : WS :=
  let cw := newCellW w isText inp
  match w.cellList.indexOf? id with
  | some i =>
    { cw.2 with cellStore := cw.2.cellStore ++ [cw.1],
                cellList := pyInsert cw.2.cellList i cw.1.cid }
  | none =>
    { cw.2 with cellStore := cw.2.cellStore ++ [cw.1],
                cellList := cw.2.cellList ++ [cw.1.cid] }

def newCellAfterW (w : WS) (isText : Bool) (id : PyVal) (inp : Txt) : WS :=
  let cw := newCellW w isText inp
  match w.cellList.indexOf? id with
  | some i =>
    { cw.2 with cellStore := cw.2.cellStore ++ [cw.1],
                cellList := pyInsert cw.2.cellList (i + 1) cw.1.cid }
  | none =>
    { cw.2 with cellStore := cw.2.cellStore ++ [cw.1],
                cellList := cw.2.cellList ++ [cw.1.cid] }

def appendNewCellW (w : WS) : WS :=
  let cw := newCellW w false []
  { cw.2 with cellStore := cw.2.cellStore ++ [cw.1],
              cellList := cw.2.cellList ++ [cw.1.cid] }

inductive WOp where
  | editSaveOp (t : Txt)
  | appendNew
  | newBefore (isText : Bool) (id : PyVal) (inp : Txt)
  | newAfter (isText : Bool) (id : PyVal) (inp : Txt)
  | deleteOp (id : PyVal)
  | enqueueOp (id : PyVal) (now : Int)

def applyOp (w : WS) : WOp → WS
  | .editSaveOp t => editSaveW w t
  | .appendNew => appendNewCellW w
  | .newBefore isText id inp => newCellBeforeW w isText id inp
  | .newAfter isText id inp => newCellAfterW w isText id inp
  | .deleteOp id => (deleteCellWithId w id).2
  | .enqueueOp id now =>
    match getCellOrNone w id with
    | some c =>
      match enqueue w c now with
      | .ok w2 => w2
      | .error _ => { w with lastComputeTime := some now }
    | none => w

def applyOps (w : WS) (ops : List WOp) : WS := ops.foldl applyOp w

def WInv (w : WS) : Prop :=
  w.cellList.Nodup ∧
  ∀ id ∈ w.cellList, ∀ n : Int, id = PyVal.int n → n < w.nextId

def c5St : BuildSt := { ids := [PyVal.int 0], used := [PyVal.int 0], cells := [] }

/-- A valid markup text whose parsed cell input begins with three slashes:
the opening delimiter, a space-indented ///x input line, the output
separator, an output, and the closing delimiter. -/
def c1Bad : Txt := openDelim ++ "\n ///x\n///\nout".toList ++ closeNl

def occursAt (pat t : Txt) (i : Nat) : Prop := pat <+: t.drop i

/-- No occurrence of pat anywhere in t. -/
def noSub (pat t : Txt) : Prop := ∀ i, ¬ occursAt pat t i

/-- pat does not overlap itself: no proper nonempty suffix-drop equals the
corresponding prefix. -/
def selfOvFree (pat : Txt) : Prop :=
  ∀ ℓ < pat.length, 0 < ℓ → pat.drop ℓ ≠ pat.take (pat.length - ℓ)

instance (pat t : Txt) (i : Nat) : Decidable (occursAt pat t i) := by
  unfold occursAt
  infer_instance

instance (pat : Txt) : Decidable (selfOvFree pat) := by
  unfold selfOvFree
  infer_instance

instance (pat t : Txt) : Decidable (noSub pat t) :=
  decidable_of_iff (pat ≠ [] ∧ ∀ i < t.length, ¬ occursAt pat t i)
    (by
      constructor
      · rintro ⟨hne, h⟩ i hocc
        by_cases hi : i < t.length
        · exact h i hi hocc
        · have h2 := hocc
          unfold occursAt at h2
          rw [List.drop_of_length_le (by omega)] at h2
          exact hne (List.prefix_nil.mp h2)
      · intro h
        refine ⟨?_, fun i _ => h i⟩
        intro hp
        exact h 0 (by simp [occursAt, hp]))

/-- Whether a PyVal is a Python int. -/
def PyVal.isInt : PyVal → Bool
  | .int _ => true
  | .str _ => false

/-- The normal form that one parse-serialize pass of edit_save/body leaves a
cell in: input stripped, output stripped with the separator newline kept. -/
def normCell : CellM → CellM
  | .compute i inp out => .compute i (strip inp) ('\n' :: strip out)
  | .textc i t => .textc i (strip t)

/-- A compute cell with an integer id whose content does not collide with the
markup delimiters: the first triple-slash separator of its serialized block is
the canonical one, and no premature closing delimiter occurs in the block. -/
def CleanCell (c : CellM) : Prop :=
  c.isComputeCell = true ∧ c.cid.isInt = true ∧
    noSub sepNl ('\n' :: strip c.inpTxt) ∧
    noSub closeNl ('\n' :: (strip c.inpTxt ++ sepNl ++ '\n' :: strip c.outTxt))

instance (c : CellM) : Decidable (CleanCell c) := by
  unfold CleanCell
  infer_instance

/-- The serialized body of a list of compute cells: each block after a blank
line (the shape Worksheet.body produces when every stripped block is nonempty). -/
def bodyBlocks : List CellM → Txt
  | [] => []
  | c :: rest => '\n' :: '\n' :: (cellEditText c ++ bodyBlocks rest)

/-- The data item that the edit_save parse loop recovers from the serialized
block of a clean compute cell. -/
def parsedItem (c : CellM) : DataItem :=
  DataItem.compute [(idKey, c.cid)] (strip c.inpTxt) ('\n' :: strip c.outTxt)

theorem findSub_nil_of_ne_nil {pat : Txt} (h : pat ≠ []) : findSub pat [] = none := by
  simp [findSub, List.isPrefixOf_iff_prefix, h]

theorem findSub_eq_some_iff {pat t : Txt} {n : Nat} :
    findSub pat t = some n ↔
      (pat <+: t.drop n ∧ ∀ i < n, ¬ pat <+: t.drop i) := by
  induction t generalizing n with
  | nil =>
    rcases eq_or_ne pat [] with rfl | hpat
    · constructor
      · intro h
        simp only [findSub, List.isPrefixOf_iff_prefix, List.nil_prefix, if_pos,
          Option.some_inj] at h
        subst h
        exact ⟨List.nil_prefix, by omega⟩
      · intro ⟨h1, h2⟩
        rcases Nat.eq_zero_or_pos n with rfl | hn
        · simp [findSub]
        · exact absurd (List.nil_prefix) (h2 0 hn)
    · have hnone : findSub pat [] = none := by
        simp [findSub, List.isPrefixOf_iff_prefix, List.prefix_nil, hpat]
      rw [hnone]
      constructor
      · intro h
        exact absurd h (by simp)
      · intro ⟨h1, _⟩
        rw [List.drop_nil] at h1
        exact absurd (List.prefix_nil.mp h1) hpat
  | cons c rest ih =>
    by_cases hp : pat.isPrefixOf (c :: rest)
    · rw [List.isPrefixOf_iff_prefix] at hp
      constructor
      · intro h
        simp [findSub, List.isPrefixOf_iff_prefix, hp] at h
        subst h
        exact ⟨by simpa using hp, by omega⟩
      · intro ⟨h1, h2⟩
        rcases Nat.eq_zero_or_pos n with rfl | hn
        · simp [findSub, List.isPrefixOf_iff_prefix, hp]
        · exact absurd (by simpa using hp) (h2 0 hn)
    · have hp' := hp
      rw [List.isPrefixOf_iff_prefix] at hp'
      constructor
      · intro h
        simp only [findSub, if_neg hp, Option.map_eq_some'] at h
        obtain ⟨m, hm, rfl⟩ := h
        obtain ⟨h1, h2⟩ := ih.mp hm
        refine ⟨by simpa using h1, ?_⟩
        intro i hi
        rcases Nat.eq_zero_or_pos i with rfl | hipos
        · simpa using hp'
        · obtain ⟨j, rfl⟩ := Nat.exists_eq_add_of_lt hipos
          have := h2 j (by omega)
          simpa [Nat.add_comm] using this
      · intro ⟨h1, h2⟩
        rcases Nat.eq_zero_or_pos n with rfl | hn
        · exact absurd (by simpa using h1) hp'
        · obtain ⟨m, rfl⟩ := Nat.exists_eq_add_of_lt hn
          simp only [findSub, if_neg hp, Option.map_eq_some']
          refine ⟨m, ih.mpr ⟨by simpa [Nat.add_comm] using h1, ?_⟩, by omega⟩
          intro i hi
          have := h2 (i + 1) (by omega)
          simpa using this

theorem findSub_eq_none_iff {pat t : Txt} :
    findSub pat t = none ↔ ∀ i, ¬ pat <+: t.drop i := by
  induction t with
  | nil =>
    rcases eq_or_ne pat [] with rfl | hpat
    · constructor
      · intro h
        simp [findSub] at h
      · intro h
        exact absurd (List.nil_prefix) (h 0)
    · have hnone : findSub pat [] = none := by
        simp [findSub, List.isPrefixOf_iff_prefix, List.prefix_nil, hpat]
      rw [hnone]
      simp only [List.drop_nil, List.prefix_nil, true_iff]
      exact fun _ => hpat
  | cons c rest ih =>
    by_cases hp : pat.isPrefixOf (c :: rest)
    · have hp' := hp
      rw [List.isPrefixOf_iff_prefix] at hp'
      simp only [findSub, if_pos hp]
      constructor
      · intro h
        simp at h
      · intro h
        exact absurd (by simpa using hp') (h 0)
    · have hp' := hp
      rw [List.isPrefixOf_iff_prefix] at hp'
      simp only [findSub, if_neg hp, Option.map_eq_none', ih]
      constructor
      · intro h i
        rcases Nat.eq_zero_or_pos i with rfl | hipos
        · simpa using hp'
        · obtain ⟨j, rfl⟩ := Nat.exists_eq_add_of_lt hipos
          simpa [Nat.add_comm] using h j
      · intro h i
        simpa using h (i + 1)

theorem firstNotIn_correct (v : List PyVal) :
    ∀ (fuel i : Nat), (∃ n : Nat, i ≤ n ∧ n < i + fuel ∧ PyVal.int n ∉ v) →
      PyVal.int (firstNotIn v fuel i) ∉ v ∧ i ≤ firstNotIn v fuel i ∧
        ∀ m : Nat, i ≤ m → m < firstNotIn v fuel i → PyVal.int m ∈ v := by
  intro fuel
  induction fuel with
  | zero =>
    intro i ⟨n, h1, h2, _⟩
    omega
  | succ f ih =>
    intro i ⟨n, h1, h2, h3⟩
    by_cases hmem : PyVal.int i ∈ v
    · have hne : n ≠ i := fun h => by subst h; exact h3 hmem
      obtain ⟨r1, r2, r3⟩ := ih (i + 1) ⟨n, by omega, by omega, h3⟩
      refine ⟨by simpa [firstNotIn, hmem] using r1, ?_, ?_⟩
      · simp only [firstNotIn, if_pos hmem]
        omega
      · intro m hm1 hm2
        simp only [firstNotIn, if_pos hmem] at hm2
        rcases Nat.eq_or_lt_of_le hm1 with rfl | hlt
        · exact hmem
        · exact r3 m (by omega) hm2
    · simp only [firstNotIn, if_neg hmem]
      exact ⟨hmem, le_refl i, by omega⟩

theorem pyValInt_injective : Function.Injective (fun n : Nat => PyVal.int n) := by
  intro a b h
  simp only [PyVal.int.injEq, Int.natCast_inj] at h
  exact h

theorem exists_int_not_mem (v : List PyVal) :
    ∃ n : Nat, n ≤ v.length ∧ PyVal.int n ∉ v := by
  by_contra hcon
  push_neg at hcon
  have hsub : (Finset.range (v.length + 1)).image (fun n : Nat => PyVal.int n) ⊆ v.toFinset := by
    intro x hx
    simp only [Finset.mem_image, Finset.mem_range] at hx
    obtain ⟨n, hn, rfl⟩ := hx
    exact List.mem_toFinset.mpr (hcon n (by omega))
  have hcard := Finset.card_le_card hsub
  rw [Finset.card_image_of_injective _ pyValInt_injective, Finset.card_range] at hcard
  have := v.toFinset_card_le
  omega

theorem nextAvailableId_spec (v : List PyVal) :
    PyVal.int (nextAvailableId v) ∉ v ∧
      ∀ m : Nat, m < nextAvailableId v → PyVal.int m ∈ v := by
  obtain ⟨n, hn, hnm⟩ := exists_int_not_mem v
  obtain ⟨r1, _, r3⟩ := firstNotIn_correct v (v.length + 1) 0 ⟨n, by omega, by omega, hnm⟩
  exact ⟨r1, fun m hm => r3 m (by omega) hm⟩

theorem nextAvailableId_not_mem (v : List PyVal) : PyVal.int (nextAvailableId v) ∉ v :=
  (nextAvailableId_spec v).1

theorem findSub_drop_none {pat t : Txt} (h : findSub pat t = none) (n : Nat) :
    findSub pat (t.drop n) = none := by
  rw [findSub_eq_none_iff] at h ⊢
  intro i
  rw [List.drop_drop, Nat.add_comm]
  exact h (i + n)

theorem extractFirstComputeCell_eq_none_iff (t : Txt) :
    extractFirstComputeCell t = none ↔
      (findSub openDelim t = none ∨
        ∃ i, findSub openDelim t = some i ∧ findSub ['\n'] (t.drop i) = none) := by
  cases h1 : findSub openDelim t with
  | none => simp [extractFirstComputeCell, h1]
  | some i =>
    cases h2 : findSub ['\n'] (t.drop i) with
    | none => simp [extractFirstComputeCell, h1, h2]
    | some j =>
      have hne : extractFirstComputeCell t ≠ none := by
        unfold extractFirstComputeCell
        rw [h1]
        dsimp only
        rw [h2]
        dsimp only
        split
        · simp
        · split <;> simp
      simp only [hne, false_iff, h1]
      push_neg
      refine ⟨by simp, ?_⟩
      intro k hk
      injection hk with hk
      subst hk
      simp [h2]

theorem extract_missing_close (t : Txt) (i : Nat)
    (h1 : findSub openDelim t = some i)
    (h2 : findSub ['\n'] (t.drop i) ≠ none)
    (h3 : findSub closeNl t = none) :
    ∃ m inp out, extractFirstComputeCell t = some (m, inp, out, t.length + 4) := by
  obtain ⟨j, hj⟩ := Option.ne_none_iff_exists'.mp h2
  unfold extractFirstComputeCell
  rw [h1]
  dsimp only
  rw [hj]
  dsimp only
  rw [findSub_drop_none h3]
  dsimp only
  split
  · exact ⟨_, _, _, rfl⟩
  · split
    · exact ⟨_, _, _, rfl⟩
    · exact ⟨_, _, _, rfl⟩

/-- C2, counterexample.  The text opens a compute block with the triple-brace
delimiter and contains no closing delimiter at all, yet
extract_first_compute_cell does not raise EOFError: it returns the remainder
as the cell input (with end index past the text length), contradicting the
claim that a missing closing delimiter signals end-of-input. -/
theorem C2_missing_close_counterexample :
    findSub openDelim c2Text = some 0 ∧ findSub closeNl c2Text = none ∧
      findSub [rbr, rbr, rbr] c2Text = none ∧
      extractFirstComputeCell c2Text = some ([], ['x'], [], 9) := by
  decide

/-- C2, amended.  extract_first_compute_cell signals end-of-input (EOFError)
exactly when the text has no opening delimiter, or no newline anywhere after
the position of the first opening delimiter.  When a block is opened and
newline-terminated but the closing delimiter is absent, the parse instead
succeeds, treating everything up to the end of the text as the block and
returning an end index of len(text) + 4. -/
theorem C2_missing_close_amended :
    (∀ t : Txt, extractFirstComputeCell t = none ↔
      (findSub openDelim t = none ∨
        ∃ i, findSub openDelim t = some i ∧ findSub ['\n'] (t.drop i) = none)) ∧
    (∀ (t : Txt) (i : Nat), findSub openDelim t = some i →
      findSub ['\n'] (t.drop i) ≠ none → findSub closeNl t = none →
      ∃ m inp out, extractFirstComputeCell t = some (m, inp, out, t.length + 4)) :=
  ⟨extractFirstComputeCell_eq_none_iff, extract_missing_close⟩

/-- C2, witness: the amended theorem applied to the concrete unclosed block. -/
theorem C2_missing_close_witness :
    ∃ m inp out, extractFirstComputeCell c2Text = some (m, inp, out, c2Text.length + 4) :=
  C2_missing_close_amended.2 c2Text 0 (by decide) (by decide) (by decide)

/-- C4, counterexample.  Parsing the scenario text yields cells whose
outputs are not the claimed 5 and 10: the parsed outputs retain the newline
that follows the /// separator line (the worksheet.py doctests show the same:
out=\n5). -/
theorem C4_scenario_counterexample :
    ¬ ((editSaveCells c4Text).map CellM.outTxt = ["5".toList, "10".toList]) := by
  decide

/-- C4, amended.  Parsing the scenario text with edit_save produces exactly
two compute cells with ids 0 and 10, inputs 2+3 and 2+8, and outputs
newline-5 and newline-10 (each output keeps the newline after the ///
separator); next_id() afterwards returns 11. -/
theorem C4_scenario_amended :
    editSaveResult c4Text =
      ([CellM.compute (PyVal.int 0) "2+3".toList "\n5".toList,
        CellM.compute (PyVal.int 10) "2+8".toList "\n10".toList], 11) := by
  decide

theorem lcp2_prefix_left : ∀ a b : Txt, lcp2 a b <+: a := by
  intro a
  induction a with
  | nil => intro b; simp [lcp2]
  | cons x xs ih =>
    intro b
    cases b with
    | nil => simp [lcp2]
    | cons y ys =>
      by_cases h : x = y
      · subst h
        simpa [lcp2, List.cons_prefix_cons] using ih ys
      · simp [lcp2, h]

theorem lcp2_prefix_right : ∀ a b : Txt, lcp2 a b <+: b := by
  intro a
  induction a with
  | nil => intro b; simp [lcp2]
  | cons x xs ih =>
    intro b
    cases b with
    | nil => simp [lcp2]
    | cons y ys =>
      by_cases h : x = y
      · subst h
        simpa [lcp2, List.cons_prefix_cons] using ih ys
      · simp [lcp2, h]

theorem take_eq_take_iff_lcp2 : ∀ (a b : Txt) (j : Nat), j ≤ a.length → j ≤ b.length →
    (a.take j = b.take j ↔ j ≤ (lcp2 a b).length) := by
  intro a
  induction a with
  | nil =>
    intro b j hj _
    have hj0 : j = 0 := Nat.le_zero.mp (by simpa using hj)
    subst hj0
    simp
  | cons x xs ih =>
    intro b j hja hjb
    cases b with
    | nil =>
      simp only [List.length_nil, Nat.le_zero] at hjb
      subst hjb
      simp
    | cons y ys =>
      cases j with
      | zero => simp
      | succ j =>
        simp only [List.length_cons, Nat.succ_le_succ_iff] at hja hjb
        by_cases h : x = y
        · subst h
          rw [show lcp2 (x :: xs) (x :: ys) = x :: lcp2 xs ys from by simp [lcp2]]
          simp only [List.take_succ_cons, List.length_cons, Nat.succ_le_succ_iff,
            List.cons.injEq, true_and]
          exact ih ys j hja hjb
        · simp [List.take_succ_cons, lcp2, h]

theorem foldl_lcp2_pre : ∀ (cs : List Txt) (base : Txt),
    (List.foldl lcp2 base cs) <+: base := by
  intro cs
  induction cs with
  | nil => intro base; simp
  | cons w cs ih =>
    intro base
    exact (ih (lcp2 base w)).trans (lcp2_prefix_left base w)

theorem foldl_lcp2_le : ∀ (cs : List Txt) (base w : Txt), w ∈ cs →
    (List.foldl lcp2 base cs).length ≤ w.length := by
  intro cs
  induction cs with
  | nil => intro base w hw; simp at hw
  | cons v cs ih =>
    intro base w hw
    rcases List.mem_cons.mp hw with rfl | hw
    · exact ((foldl_lcp2_pre cs (lcp2 base w)).length_le).trans
        ((lcp2_prefix_right base w).length_le)
    · exact ih (lcp2 base v) w hw

theorem prefix_take_eq {p a : Txt} (hp : p <+: a) {j : Nat} (hj : j ≤ p.length) :
    a.take j = p.take j := by
  rw [List.prefix_iff_eq_take.mp hp]
  rw [List.take_take]
  rw [Nat.min_eq_left hj]

theorem foldl_lcp2_agree : ∀ (cs : List Txt) (base : Txt) (j : Nat),
    j ≤ base.length → (∀ w ∈ cs, j ≤ w.length) →
    ((∀ w ∈ cs, w.take j = base.take j) ↔ j ≤ (List.foldl lcp2 base cs).length) := by
  intro cs
  induction cs with
  | nil =>
    intro base j hbase _
    simpa using hbase
  | cons w cs ih =>
    intro base j hbase hws
    have hw : j ≤ w.length := hws w (List.mem_cons_self w cs)
    have hlcpiff := take_eq_take_iff_lcp2 base w j hbase hw
    simp only [List.foldl_cons]
    constructor
    · intro h
      have h1 : w.take j = base.take j := h w (List.mem_cons_self w cs)
      have hj : j ≤ (lcp2 base w).length := hlcpiff.mp h1.symm
      apply (ih (lcp2 base w) j hj (fun v hv => hws v (List.mem_cons_of_mem w hv))).mp
      intro v hv
      rw [h v (List.mem_cons_of_mem w hv),
        prefix_take_eq (lcp2_prefix_left base w) hj]
    · intro h
      have hj : j ≤ (lcp2 base w).length :=
        le_trans h (foldl_lcp2_pre cs (lcp2 base w)).length_le
      have hbt : base.take j = (lcp2 base w).take j :=
        prefix_take_eq (lcp2_prefix_left base w) hj
      intro v hv
      rcases List.mem_cons.mp hv with rfl | hv
      · exact (hlcpiff.mpr hj).symm
      · have := (ih (lcp2 base w) j hj
          (fun u hu => hws u (List.mem_cons_of_mem w hu))).mpr h v hv
        rw [this, hbt]

theorem foldl_min_le : ∀ (rest : List Txt) (a : Nat),
    List.foldl (fun a x => min a x.length) a rest ≤ a ∧
      ∀ w ∈ rest, List.foldl (fun a x => min a x.length) a rest ≤ w.length := by
  intro rest
  induction rest with
  | nil => intro a; simp
  | cons v rest ih =>
    intro a
    obtain ⟨h1, h2⟩ := ih (min a v.length)
    refine ⟨le_trans h1 (Nat.min_le_left _ _), ?_⟩
    intro w hw
    rcases List.mem_cons.mp hw with rfl | hw
    · exact le_trans h1 (Nat.min_le_right _ _)
    · exact h2 w hw

theorem minLen_le {c0 : Txt} {rest : List Txt} {w : Txt} (hw : w ∈ c0 :: rest) :
    minLen (c0 :: rest) ≤ w.length := by
  rcases List.mem_cons.mp hw with rfl | hw
  · exact (foldl_min_le rest w.length).1
  · exact (foldl_min_le rest c0.length).2 w hw

theorem le_foldl_min : ∀ (rest : List Txt) (a L : Nat), L ≤ a →
    (∀ w ∈ rest, L ≤ w.length) →
    L ≤ List.foldl (fun a x => min a x.length) a rest := by
  intro rest
  induction rest with
  | nil => intro a L h _; simpa using h
  | cons v rest ih =>
    intro a L h hall
    exact ih (min a v.length) L
      (le_min h (hall v (List.mem_cons_self v rest)))
      (fun w hw => hall w (List.mem_cons_of_mem v hw))

theorem bcGo_eq (cs : List Txt) (c0 : Txt) (n m : Nat)
    (hm : ∀ w ∈ c0 :: cs, m ≤ w.length)
    (hLm : (List.foldl lcp2 c0 cs).length ≤ m) :
    ∀ fuel i, m + 2 ≤ fuel + i → n ≤ i →
      (i = n ∨ i ≤ (List.foldl lcp2 c0 cs).length + 1) →
      bcGo cs c0 n m i fuel = (c0.take (List.foldl lcp2 c0 cs).length).drop n := by
  set L := (List.foldl lcp2 c0 cs).length with hLdef
  have hLc0 : L ≤ c0.length := (foldl_lcp2_pre cs c0).length_le
  have hexit : ∀ i, m < i → (i = n ∨ i ≤ L + 1) →
      (c0.drop n).take (m - n) = (c0.take L).drop n := by
    intro i hmi hcase
    rcases hcase with rfl | hiL
    · have hmn : m < i := hmi
      have h1 : (c0.drop i).take (m - i) = [] := by
        have : m - i = 0 := by omega
        simp [this]
      have h2 : (c0.take L).drop i = [] := by
        apply List.drop_eq_nil_of_le
        calc (c0.take L).length ≤ L := by simp
          _ ≤ m := hLm
          _ ≤ i := by omega
      rw [h1, h2]
    · have hLe : L = m := by omega
      rw [hLe]
      exact (List.drop_take m n c0).symm
  intro fuel
  induction fuel with
  | zero =>
    intro i hfuel hni hcase
    simp only [Nat.zero_add] at hfuel
    exact hexit i (by omega) hcase
  | succ fuel ih =>
    intro i hfuel hni hcase
    by_cases him : i ≤ m
    · rw [show bcGo cs c0 n m i (fuel + 1) =
        (if i ≤ m then
          match cs.find? (fun w => w.take i != c0.take i) with
          | some w => (w.drop n).take (i - 1 - n)
          | none => bcGo cs c0 n m (i + 1) fuel
        else (c0.drop n).take (m - n)) from rfl]
      rw [if_pos him]
      have hic0 : i ≤ c0.length := le_trans him (hm c0 (List.mem_cons_self c0 cs))
      have hics : ∀ w ∈ cs, i ≤ w.length :=
        fun w hw => le_trans him (hm w (List.mem_cons_of_mem c0 hw))
      cases hfind : cs.find? (fun w => w.take i != c0.take i) with
      | some w =>
        dsimp only
        have hwmem : w ∈ cs := List.mem_of_find?_eq_some hfind
        have hwp : w.take i ≠ c0.take i := by
          have := List.find?_some hfind
          simpa using this
        have hdiv : ¬ (i ≤ L) := by
          intro hiL
          exact hwp ((foldl_lcp2_agree cs c0 i hic0 hics).mpr hiL w hwmem)
        have hLi : L < i := by omega
        rcases hcase with rfl | hiL1
        · have h1 : i - 1 - i = 0 := by omega
          rw [h1]
          simp only [List.take_zero]
          have : (c0.take L).drop i = [] := by
            apply List.drop_eq_nil_of_le
            calc (c0.take L).length ≤ L := by simp
              _ ≤ i := by omega
          rw [this]
        · have hiLe : i = L + 1 := by omega
          subst hiLe
          by_cases hnL : n ≤ L
          · have hagree : ∀ v ∈ cs, v.take L = c0.take L :=
              (foldl_lcp2_agree cs c0 L (by omega)
                (fun v hv => le_trans (by omega) (hics v hv))).mpr (le_refl L)
            have hwL : w.take L = c0.take L := hagree w hwmem
            have h1 : L + 1 - 1 - n = L - n := by omega
            rw [h1]
            have h2 : (w.drop n).take (L - n) = ((w.take L).drop n) := by
              rw [List.drop_take]
            rw [h2, hwL]
          · have hnL1 : n = L + 1 := by omega
            have h1 : L + 1 - 1 - n = 0 := by omega
            rw [h1]
            simp only [List.take_zero]
            have : (c0.take L).drop n = [] := by
              apply List.drop_eq_nil_of_le
              calc (c0.take L).length ≤ L := by simp
                _ ≤ n := by omega
            rw [this]
      | none =>
        dsimp only
        have hagree : ∀ w ∈ cs, w.take i = c0.take i := by
          intro w hw
          have := List.find?_eq_none.mp hfind w hw
          simpa using this
        have hiL : i ≤ L := (foldl_lcp2_agree cs c0 i hic0 hics).mp hagree
        exact ih (i + 1) (by omega) (by omega) (Or.inr (by omega))
    · rw [show bcGo cs c0 n m i (fuel + 1) =
        (if i ≤ m then
          match cs.find? (fun w => w.take i != c0.take i) with
          | some w => (w.drop n).take (i - 1 - n)
          | none => bcGo cs c0 n m (i + 1) fuel
        else (c0.drop n).take (m - n)) from rfl]
      rw [if_neg him]
      exact hexit i (by omega) hcase

/-- C8: for every space-separated candidate string s and word of length n,
best_completion(s, word) returns the longest common prefix of all candidates
(the fold of the binary longest-common-prefix over the split of s) with its
first n characters removed; in particular it is empty when there are no
candidates (listLcp [] = []) or when the candidates diverge at or before
index n. -/
theorem C8_best_completion (s word : Txt) :
    bestCompletion s word = (listLcp (pysplit s)).drop word.length := by
  unfold bestCompletion
  cases hsp : pysplit s with
  | nil => simp [listLcp]
  | cons c0 rest =>
    have hm : ∀ w ∈ c0 :: rest, minLen (c0 :: rest) ≤ w.length :=
      fun w hw => minLen_le hw
    have hL_all : ∀ w ∈ c0 :: rest, (List.foldl lcp2 c0 rest).length ≤ w.length := by
      intro w hw
      rcases List.mem_cons.mp hw with rfl | hw
      · exact (foldl_lcp2_pre rest w).length_le
      · exact foldl_lcp2_le rest c0 w hw
    have hLm : (List.foldl lcp2 c0 rest).length ≤ minLen (c0 :: rest) := by
      show _ ≤ rest.foldl (fun a x => min a x.length) c0.length
      exact le_foldl_min rest c0.length _
        (hL_all c0 (List.mem_cons_self c0 rest))
        (fun w hw => hL_all w (List.mem_cons_of_mem c0 hw))
    dsimp only
    rw [bcGo_eq rest c0 word.length (minLen (c0 :: rest)) hm hLm
      (minLen (c0 :: rest) + 2) word.length (by omega) (le_refl _) (Or.inl rfl)]
    have hfe : List.foldl lcp2 c0 rest =
        c0.take (List.foldl lcp2 c0 rest).length :=
      List.prefix_iff_eq_take.mp (foldl_lcp2_pre rest c0)
    show (c0.take (List.foldl lcp2 c0 rest).length).drop word.length =
      (listLcp (c0 :: rest)).drop word.length
    rw [show listLcp (c0 :: rest) = List.foldl lcp2 c0 rest from rfl, ← hfe]

/-- C7: interrupt(timeout) leaves the worksheet state — in particular the
pending queue — unchanged, and its outcome is the boolean that is true iff
the queue is empty or the handle reports not-busy after the interrupt signal
and the bounded sleep; no exception is part of the outcome (the model is a
total function into Bool). -/
theorem C7_interrupt (w : WS) (h : InterruptOracle) :
    (interruptW w h).2 = w ∧
      (interruptW w h).1 = (w.queue.isEmpty || !h.busyAfter) := by
  unfold interruptW
  by_cases hq : w.queue.isEmpty <;> simp [hq]

/-- C9: on a published worksheet (owner is the reserved pub user) enqueue
returns immediately as a silent no-op — the worksheet, including its queue,
is returned unchanged and no error is raised, even for a non-compute cell or
a cell of another worksheet; the TypeError/ValueError validation happens
only on unpublished worksheets. -/
theorem C9_enqueue_published :
    (∀ (w : WS) (C : WCell) (now : Int), w.owner = unPub →
      enqueue w C now = .ok w) ∧
    (∀ (w : WS) (C : WCell) (now : Int), ¬ w.owner = unPub → C.isCompute = false →
      enqueue w C now = .error .typeError) ∧
    (∀ (w : WS) (C : WCell) (now : Int), ¬ w.owner = unPub → C.isCompute = true →
      C.wsRef ≠ w.selfRef → enqueue w C now = .error .valueError) := by
  refine ⟨?_, ?_, ?_⟩
  · intro w C now hpub
    unfold enqueue
    rw [if_pos (by simpa [WS.isPublished] using hpub)]
  · intro w C now hpub hC
    unfold enqueue
    rw [if_neg (by simpa [WS.isPublished] using hpub)]
    simp [hC]
  · intro w C now hpub hC hws
    unfold enqueue
    rw [if_neg (by simpa [WS.isPublished] using hpub)]
    simp [hC, hws]

/-- C6: when output_status() raises (RuntimeError) while a non-interrupted
cell heads the queue, check_comp does not propagate the failure: it clears
the computing flag, immediately reattempts scheduling via start_next_comp,
and reports the head cell as still working. -/
theorem C6_checkcomp_status_failure (w : WS) (h : HandleObs) (cid : PyVal) (C : WCell)
    (hhead : w.queue.head? = some cid)
    (hC : getCellOrNone w cid = some C)
    (hint : C.interrupted = false)
    (hfail : h.statusFails = true) :
    checkComp w h = (.working, some cid, startNextComp { w with computing := false }) := by
  have hne : w.queue.isEmpty = false := by
    cases hq : w.queue with
    | nil => rw [hq] at hhead; simp at hhead
    | cons a rest => simp [hq]
  unfold checkComp
  rw [hne]
  simp only [Bool.false_eq_true, if_false]
  rw [hhead]
  dsimp only
  rw [hC]
  dsimp only
  rw [hint]
  simp only [Bool.false_eq_true, if_false]
  rw [hfail]
  simp

theorem find_cid_map (id : PyVal) (f : WCell → WCell)
    (hf : ∀ c, (f c).cid = c.cid) :
    ∀ l : List WCell,
      List.find? (fun c => decide (c.cid = id)) (l.map f) =
        (List.find? (fun c => decide (c.cid = id)) l).map f := by
  intro l
  induction l with
  | nil => simp
  | cons c rest ih =>
    by_cases hc : c.cid = id
    · have h1 : decide ((f c).cid = id) = true := by simp [hf, hc]
      have h2 : decide (c.cid = id) = true := by simp [hc]
      simp only [List.map_cons, List.find?_cons, h1, h2]
      simp
    · have h1 : decide ((f c).cid = id) = false := by simp [hf, hc]
      have h2 : decide (c.cid = id) = false := by simp [hc]
      simp only [List.map_cons, List.find?_cons, h1, h2]
      exact ih

/-- C10: delete_cell_with_id(id) removes the identified cell from the
pending queue only when it is queued and not the queue head; a queue-head
cell stays queued and the head is unchanged; in every case the cell leaves
the worksheet cell list and its output is deleted. -/
theorem C10_delete_cell (w : WS) (id : PyVal) (i : Nat)
    (hidx : w.cellList.indexOf? id = some i) :
    (w.queue.head? = some id → (deleteCellWithId w id).2.queue = w.queue ∧
      (deleteCellWithId w id).2.queue.head? = some id) ∧
    (id ∈ w.queue → w.queue.head? ≠ some id →
      (deleteCellWithId w id).2.queue = pyRemove w.queue id) ∧
    (id ∉ w.queue → (deleteCellWithId w id).2.queue = w.queue) ∧
    (deleteCellWithId w id).2.cellList = w.cellList.eraseIdx i ∧
    (∀ C, getCellOrNone w id = some C →
      getCellOrNone (deleteCellWithId w id).2 id = some { C with out := [] }) := by
  have hw2 : (deleteCellWithId w id).2 =
      { updateCell
          { w with queue := if id ∈ w.queue ∧ w.queue.head? ≠ some id
              then pyRemove w.queue id else w.queue } id
          (fun c => { c with out := [] }) with
        cellList :=
          (updateCell
            { w with queue := if id ∈ w.queue ∧ w.queue.head? ≠ some id
                then pyRemove w.queue id else w.queue } id
            (fun c => { c with out := [] })).cellList.eraseIdx i } := by
    unfold deleteCellWithId
    rw [hidx]
    dsimp only
    by_cases hi : i > 0
    · rw [if_pos hi]
    · rw [if_neg hi]
  rw [hw2]
  refine ⟨?_, ?_, ?_, ?_, ?_⟩
  · intro hhead
    have hcond : ¬ (id ∈ w.queue ∧ w.queue.head? ≠ some id) := by
      intro ⟨_, hne⟩; exact hne hhead
    simp only [updateCell, if_neg hcond]
    exact ⟨by trivial, hhead⟩
  · intro hmem hne
    have hcond : id ∈ w.queue ∧ w.queue.head? ≠ some id := ⟨hmem, hne⟩
    simp only [updateCell, if_pos hcond]
  · intro hnmem
    have hcond : ¬ (id ∈ w.queue ∧ w.queue.head? ≠ some id) := by
      intro ⟨hm, _⟩; exact hnmem hm
    simp only [updateCell, if_neg hcond]
  · simp [updateCell]
  · intro C hC
    have hC2 : List.find? (fun c => decide (c.cid = id)) w.cellStore = some C := hC
    have hcid : C.cid = id := by
      have := List.find?_some hC2
      simpa using this
    have h := find_cid_map id
      (fun c => if c.cid = id then { c with out := ([] : Txt) } else c)
      (fun c => by by_cases hc : c.cid = id <;> simp [hc]) w.cellStore
    simp only [getCellOrNone, updateCell]
    rw [h, hC2]
    simp [hcid]

theorem startExec_queue (w : WS) (cid : PyVal) (C : WCell) :
    (startNextComp.startExec w cid C).queue = w.queue := by
  unfold startNextComp.startExec
  simp [updateCell]

theorem startNextComp_computing {w : WS} (h : w.computing = true) :
    startNextComp w = w := by
  unfold startNextComp
  by_cases hq : w.queue.isEmpty <;> simp [hq, h]

theorem startNextComp_queue_eq (w : WS)
    (hnr : ∀ cid C, w.queue.head? = some cid → getCellOrNone w cid = some C →
      C.cleanedInp ∉ restartKeywords) :
    (startNextComp w).queue = w.queue := by
  unfold startNextComp
  by_cases hq : w.queue.isEmpty
  · simp [hq]
  · simp only [hq, Bool.false_eq_true, if_false]
    by_cases hc : w.computing
    · simp [hc]
    · simp only [hc, Bool.false_eq_true, if_false]
      cases hhead : w.queue.head? with
      | none => rfl
      | some cid =>
        dsimp only
        cases hcell : getCellOrNone w cid with
        | none => rfl
        | some C =>
          dsimp only
          by_cases hint : C.interrupted
          · simp [hint]
          · simp only [hint, Bool.false_eq_true, if_false]
            by_cases hsys : getCellSystem w C = some sageSystem ∧ C.introspect.isSome
            · rw [if_pos hsys]
              exact startExec_queue w cid C
            · rw [if_neg hsys]
              have hres : C.cleanedInp ∉ restartKeywords := hnr cid C hhead hcell
              rw [if_neg hres]
              exact startExec_queue w cid C

theorem takeWhile_middle (p : PyVal → Bool) (asaps normals : List PyVal)
    (hall : ∀ a ∈ asaps, p a = true)
    (hfirst : ∀ n0, normals.head? = some n0 → p n0 = false) :
    (asaps ++ normals).takeWhile p = asaps := by
  induction asaps with
  | nil =>
    cases normals with
    | nil => simp
    | cons n0 rest =>
      simp [List.takeWhile_cons, hfirst n0 rfl]
  | cons a asaps ih =>
    simp only [List.cons_append, List.takeWhile_cons,
      hall a (List.mem_cons_self a asaps), if_true, List.cons.injEq, true_and]
    exact ih (fun x hx => hall x (List.mem_cons_of_mem a hx))

theorem enqueue_asap_running (w : WS) (C : WCell) (now : Int)
    (hpub : w.isPublished = false)
    (hcomp : C.isCompute = true) (hws : C.wsRef = w.selfRef)
    (hnq : C.cid ∉ w.queue) (hasap : C.asap = true)
    (hrun : w.computing = true)
    (runHead : PyVal) (asaps normals : List PyVal)
    (hqshape : w.queue = runHead :: asaps ++ normals)
    (hasaps : ∀ a ∈ asaps, queueEntryAsap w a = true)
    (hnorm : ∀ n0, normals.head? = some n0 → queueEntryAsap w n0 = false) :
    enqueue w C now =
      .ok { w with lastComputeTime := some now,
                   queue := runHead :: asaps ++ C.cid :: normals } := by
  unfold enqueue
  rw [if_neg (by simp [hpub])]
  simp only [hcomp, Bool.not_true, Bool.false_eq_true, if_false, hws,
    ne_eq, not_true_eq_false, if_neg]
  rw [if_neg (by simpa using hnq), if_pos hasap]
  have hqa : queueEntryAsap { w with lastComputeTime := some now } = queueEntryAsap w := by
    funext a
    rfl
  rw [hqa]
  have hdrop : ({ w with lastComputeTime := some now } : WS).queue.drop 1 =
      asaps ++ normals := by
    show w.queue.drop 1 = asaps ++ normals
    rw [hqshape]
    rfl
  rw [show (if ({ w with lastComputeTime := some now } : WS).computing then 1 else 0) = 1
    from by simp [hrun]]
  rw [hdrop, takeWhile_middle (queueEntryAsap w) asaps normals hasaps hnorm]
  have hins : pyInsert ({ w with lastComputeTime := some now } : WS).queue
      (1 + asaps.length) C.cid = runHead :: asaps ++ C.cid :: normals := by
    show pyInsert w.queue (1 + asaps.length) C.cid = _
    rw [hqshape]
    unfold pyInsert
    have h1 : (runHead :: asaps ++ normals).take (1 + asaps.length) =
        runHead :: asaps := by
      rw [show (1 + asaps.length) = (runHead :: asaps).length from by simp [Nat.add_comm]]
      rw [show runHead :: asaps ++ normals = (runHead :: asaps) ++ normals from rfl]
      exact List.take_left (runHead :: asaps) normals
    have h2 : (runHead :: asaps ++ normals).drop (1 + asaps.length) = normals := by
      rw [show (1 + asaps.length) = (runHead :: asaps).length from by simp [Nat.add_comm]]
      rw [show runHead :: asaps ++ normals = (runHead :: asaps) ++ normals from rfl]
      exact List.drop_left (runHead :: asaps) normals
    rw [h1, h2]
  rw [hins]
  rw [startNextComp_computing (by simpa using hrun)]

theorem enqueue_normal_append (w : WS) (C : WCell) (now : Int)
    (hpub : w.isPublished = false)
    (hcomp : C.isCompute = true) (hws : C.wsRef = w.selfRef)
    (hnq : C.cid ∉ w.queue) (hasap : C.asap = false)
    (hrun : w.computing = true) :
    enqueue w C now =
      .ok { w with lastComputeTime := some now, queue := w.queue ++ [C.cid] } := by
  unfold enqueue
  rw [if_neg (by simp [hpub])]
  simp only [hcomp, Bool.not_true, Bool.false_eq_true, if_false, hws,
    ne_eq, not_true_eq_false, if_neg]
  rw [if_neg (by simpa using hnq), if_neg (by simp [hasap])]
  rw [startNextComp_computing (by simpa using hrun)]

theorem enqueue_asap_idle (w : WS) (C : WCell) (now : Int)
    (hpub : w.isPublished = false)
    (hcomp : C.isCompute = true) (hws : C.wsRef = w.selfRef)
    (hnq : C.cid ∉ w.queue) (hasap : C.asap = true)
    (hrun : w.computing = false)
    (asaps normals : List PyVal)
    (hqshape : w.queue = asaps ++ normals)
    (hasaps : ∀ a ∈ asaps, queueEntryAsap w a = true)
    (hnorm : ∀ n0, normals.head? = some n0 → queueEntryAsap w n0 = false)
    (hnr : ∀ cid2 C2, (asaps ++ C.cid :: normals).head? = some cid2 →
      getCellOrNone w cid2 = some C2 → C2.cleanedInp ∉ restartKeywords) :
    ∃ w2, enqueue w C now = .ok w2 ∧ w2.queue = asaps ++ C.cid :: normals := by
  unfold enqueue
  rw [if_neg (by simp [hpub])]
  simp only [hcomp, Bool.not_true, Bool.false_eq_true, if_false, hws,
    ne_eq, not_true_eq_false, if_neg]
  rw [if_neg (by simpa using hnq), if_pos hasap]
  have hqa : queueEntryAsap { w with lastComputeTime := some now } = queueEntryAsap w := by
    funext a
    rfl
  rw [hqa]
  rw [show (if ({ w with lastComputeTime := some now } : WS).computing then 1 else 0) = 0
    from by simp [hrun]]
  have hdrop : ({ w with lastComputeTime := some now } : WS).queue.drop 0 =
      asaps ++ normals := by
    show w.queue.drop 0 = asaps ++ normals
    rw [hqshape]
    rfl
  rw [hdrop, takeWhile_middle (queueEntryAsap w) asaps normals hasaps hnorm]
  have hins : pyInsert ({ w with lastComputeTime := some now } : WS).queue
      (0 + asaps.length) C.cid = asaps ++ C.cid :: normals := by
    show pyInsert w.queue (0 + asaps.length) C.cid = _
    rw [hqshape]
    unfold pyInsert
    rw [Nat.zero_add]
    rw [List.take_left asaps normals, List.drop_left asaps normals]
  rw [hins]
  refine ⟨_, rfl, ?_⟩
  rw [startNextComp_queue_eq]
  intro cid2 C2 hhd hcell
  exact hnr cid2 C2 hhd hcell

/-- C3, counterexample: enqueuing B(normal), A(asap), C(asap) in the order
B, A, C on an idle worksheet (ids 1, 2, 3) yields queue order B, A, C — not
the claimed A, C, B — because the first enqueue auto-starts B (computing
becomes true), so the asap cells are inserted from index 1 on. -/
theorem C3_queue_order_counterexample :
    (c3Run.toOption.map (fun w => w.queue)) =
      some [PyVal.int 1, PyVal.int 2, PyVal.int 3] ∧
    ¬ ((c3Run.toOption.map (fun w => w.queue)) =
      some [PyVal.int 2, PyVal.int 3, PyVal.int 1]) := by
  decide

/-- C3, amended: an asap cell is inserted at index 1 when computing is true
(else 0) advanced past the leading run of queued asap cells — hence, on a
queue of a running head followed by asap cells and then non-asap cells, after
all asap entries and before all normal entries, with relative order
preserved — while a non-asap cell is appended at the tail; enqueuing
B(normal), A(asap), C(asap) in order B, A, C while nothing is running yields
queue order B, A, C with B auto-started as the running head (the pending
cells behind the running cell are A, C in order). -/
theorem C3_queue_order_amended :
    (∀ (w : WS) (C : WCell) (now : Int) (runHead : PyVal) (asaps normals : List PyVal),
      w.isPublished = false → C.isCompute = true → C.wsRef = w.selfRef →
      C.cid ∉ w.queue → C.asap = true → w.computing = true →
      w.queue = runHead :: asaps ++ normals →
      (∀ a ∈ asaps, queueEntryAsap w a = true) →
      (∀ n0, normals.head? = some n0 → queueEntryAsap w n0 = false) →
      enqueue w C now =
        .ok { w with lastComputeTime := some now,
                     queue := runHead :: asaps ++ C.cid :: normals }) ∧
    (∀ (w : WS) (C : WCell) (now : Int),
      w.isPublished = false → C.isCompute = true → C.wsRef = w.selfRef →
      C.cid ∉ w.queue → C.asap = false → w.computing = true →
      enqueue w C now =
        .ok { w with lastComputeTime := some now, queue := w.queue ++ [C.cid] }) ∧
    (∀ (w : WS) (C : WCell) (now : Int) (asaps normals : List PyVal),
      w.isPublished = false → C.isCompute = true → C.wsRef = w.selfRef →
      C.cid ∉ w.queue → C.asap = true → w.computing = false →
      w.queue = asaps ++ normals →
      (∀ a ∈ asaps, queueEntryAsap w a = true) →
      (∀ n0, normals.head? = some n0 → queueEntryAsap w n0 = false) →
      (∀ cid2 C2, (asaps ++ C.cid :: normals).head? = some cid2 →
        getCellOrNone w cid2 = some C2 → C2.cleanedInp ∉ restartKeywords) →
      ∃ w2, enqueue w C now = .ok w2 ∧ w2.queue = asaps ++ C.cid :: normals) ∧
    ((c3Run.toOption.map (fun w => (w.queue, w.computing))) =
      some ([PyVal.int 1, PyVal.int 2, PyVal.int 3], true)) :=
  ⟨fun w C now runHead asaps normals h1 h2 h3 h4 h5 h6 h7 h8 h9 =>
      enqueue_asap_running w C now h1 h2 h3 h4 h5 h6 runHead asaps normals h7 h8 h9,
   fun w C now h1 h2 h3 h4 h5 h6 =>
      enqueue_normal_append w C now h1 h2 h3 h4 h5 h6,
   fun w C now asaps normals h1 h2 h3 h4 h5 h6 h7 h8 h9 h10 =>
      enqueue_asap_idle w C now h1 h2 h3 h4 h5 h6 asaps normals h7 h8 h9 h10,
   by decide⟩

/-- C3, witness: the amended insertion rule applied to a concrete running
queue. -/
theorem C3_queue_order_witness :
    enqueue c3Wr c3C 0 =
      .ok { c3Wr with lastComputeTime := some 0,
                      queue := [PyVal.int 1, PyVal.int 2, PyVal.int 3] } :=
  C3_queue_order_amended.1 c3Wr c3C 0 (PyVal.int 1) [PyVal.int 2] []
    (by decide) (by decide) (by decide) (by decide) (by decide) (by decide)
    (by decide)
    (by decide)
    (by intro n0 h; simp at h)

/-- C6, witness: the status-failure self-healing applied to a concrete
worksheet and failing handle. -/
theorem C6_witness :
    checkComp c6W c6H =
      (.working, some (PyVal.int 1), startNextComp { c6W with computing := false }) :=
  C6_checkcomp_status_failure c6W c6H (PyVal.int 1) c6Cell
    (by decide) (by decide) (by decide) (by decide)

/-- C10, witness: deletion of a queued non-head cell on a concrete
worksheet. -/
theorem C10_witness :
    ((c10W.queue.head? = some (PyVal.int 2) →
        (deleteCellWithId c10W (PyVal.int 2)).2.queue = c10W.queue ∧
        (deleteCellWithId c10W (PyVal.int 2)).2.queue.head? = some (PyVal.int 2)) ∧
      (PyVal.int 2 ∈ c10W.queue → c10W.queue.head? ≠ some (PyVal.int 2) →
        (deleteCellWithId c10W (PyVal.int 2)).2.queue = pyRemove c10W.queue (PyVal.int 2)) ∧
      (PyVal.int 2 ∉ c10W.queue →
        (deleteCellWithId c10W (PyVal.int 2)).2.queue = c10W.queue) ∧
      (deleteCellWithId c10W (PyVal.int 2)).2.cellList = c10W.cellList.eraseIdx 1 ∧
      (∀ C, getCellOrNone c10W (PyVal.int 2) = some C →
        getCellOrNone (deleteCellWithId c10W (PyVal.int 2)).2 (PyVal.int 2) =
          some { C with out := [] })) :=
  C10_delete_cell c10W (PyVal.int 2) 1 (by decide)

/-- C9, witness: the published no-op applied to a published worksheet and a
non-compute cell belonging to a different worksheet. -/
theorem C9_witness : enqueue c9W c9Cell 0 = .ok c9W :=
  C9_enqueue_published.1 c9W c9Cell 0 (by decide)

theorem buildStep_ids_mono (st : BuildSt) (d : DataItem) :
    ∀ x ∈ st.ids, x ∈ (buildStep st d).ids := by
  intro x hx
  cases d with
  | plain T =>
    unfold buildStep
    by_cases hT : T.length > 0 <;> simp [hT, hx]
  | compute meta inp out =>
    unfold buildStep
    cases hid : dictGet meta idKey with
    | none => simp [hid, hx]
    | some idv =>
      by_cases hu : idv ∈ st.used <;> simp [hid, hu, hx]

theorem buildStep_inv (st : BuildSt) (d : DataItem)
    (hinv : BuildInv st)
    (hdecl : ∀ idv, (match d with
      | .compute m _ _ => dictGet m idKey = some idv
      | .plain _ => False) → idv ∈ st.ids) :
    BuildInv (buildStep st d) := by
  obtain ⟨hsub, hmap, hnd⟩ := hinv
  have hfresh : ∀ (idn : PyVal), idn ∉ st.ids →
      (∀ x ∈ idn :: st.used, x ∈ idn :: st.ids) ∧
      (st.cells.map CellM.cid ++ [idn] = (idn :: st.used).reverse) ∧
      ((st.cells.map CellM.cid ++ [idn]).Nodup) := by
    intro idn hni
    refine ⟨?_, ?_, ?_⟩
    · intro x hx
      rcases List.mem_cons.mp hx with rfl | hx
      · exact List.mem_cons_self _ _
      · exact List.mem_cons_of_mem _ (hsub x hx)
    · rw [hmap]
      simp
    · rw [List.nodup_append]
      refine ⟨hnd, List.nodup_singleton idn, ?_⟩
      intro x hx hx1
      rw [List.mem_singleton] at hx1
      subst hx1
      rw [hmap] at hx
      exact hni (hsub x (List.mem_reverse.mp hx))
  cases d with
  | plain T =>
    unfold buildStep
    dsimp only
    by_cases hT : T.length > 0
    · rw [if_pos hT]
      have h := hfresh (PyVal.int (nextAvailableId st.ids)) (nextAvailableId_not_mem _)
      refine ⟨h.1, ?_, ?_⟩ <;> simp only [List.map_append, List.map_cons, List.map_nil]
      · exact h.2.1
      · exact h.2.2
    · rw [if_neg hT]
      exact ⟨hsub, hmap, hnd⟩
  | compute meta inp out =>
    unfold buildStep
    dsimp only
    cases hid : dictGet meta idKey with
    | none =>
      dsimp only
      have h := hfresh (PyVal.int (nextAvailableId st.ids)) (nextAvailableId_not_mem _)
      refine ⟨h.1, ?_, ?_⟩ <;> simp only [List.map_append, List.map_cons, List.map_nil]
      · exact h.2.1
      · exact h.2.2
    | some idv =>
      dsimp only
      by_cases hu : idv ∈ st.used
      · rw [if_pos hu]
        have h := hfresh (PyVal.int (nextAvailableId st.ids)) (nextAvailableId_not_mem _)
        refine ⟨h.1, ?_, ?_⟩ <;> simp only [List.map_append, List.map_cons, List.map_nil]
        · exact h.2.1
        · exact h.2.2
      · rw [if_neg hu]
        refine ⟨?_, ?_, ?_⟩
        · intro x hx
          rcases List.mem_cons.mp hx with rfl | hx
          · exact hdecl x hid
          · exact hsub x hx
        · simp only [List.map_append, List.map_cons, List.map_nil]
          rw [hmap]
          simp [CellM.cid]
        · simp only [List.map_append, List.map_cons, List.map_nil]
          rw [List.nodup_append]
          refine ⟨hnd, List.nodup_singleton idv, ?_⟩
          intro x hx hx1
          rw [List.mem_singleton] at hx1
          subst hx1
          rw [hmap] at hx
          exact hu (List.mem_reverse.mp hx)

theorem buildFold_inv : ∀ (data : List DataItem) (st : BuildSt), BuildInv st →
    (∀ d ∈ data, ∀ idv, (match d with
      | DataItem.compute m _ _ => dictGet m idKey = some idv
      | DataItem.plain _ => False) → idv ∈ st.ids) →
    BuildInv (data.foldl buildStep st) := by
  intro data
  induction data with
  | nil => intro st h _; simpa using h
  | cons d rest ih =>
    intro st hinv hdata
    simp only [List.foldl_cons]
    apply ih (buildStep st d)
    · exact buildStep_inv st d hinv
        (fun idv h => hdata d (List.mem_cons_self d rest) idv h)
    · intro d2 hd2 idv h
      exact buildStep_ids_mono st d idv (hdata d2 (List.mem_cons_of_mem d hd2) idv h)

theorem buildCells_nodup (data : List DataItem) :
    ((buildCells data).map CellM.cid).Nodup := by
  unfold buildCells
  have hinv0 : BuildInv { ids := declaredIds data, used := [], cells := [] } := by
    refine ⟨by simp, by simp, by simp⟩
  have h := buildFold_inv data _ hinv0 ?_
  · exact h.2.2
  · intro d hd idv hmatch
    unfold declaredIds
    rw [List.mem_filterMap]
    refine ⟨d, hd, ?_⟩
    cases d with
    | plain _ => exact absurd hmatch (by simp)
    | compute m i o => simpa using hmatch

theorem foldl_max_cid : ∀ (cells : List CellM) (a : Int),
    a ≤ List.foldl (fun m c =>
      match c.cid with
      | PyVal.int n => max m n
      | PyVal.str _ => m) a cells ∧
    ∀ c ∈ cells, ∀ n : Int, c.cid = PyVal.int n →
      n ≤ List.foldl (fun m c =>
        match c.cid with
        | PyVal.int n => max m n
        | PyVal.str _ => m) a cells := by
  intro cells
  induction cells with
  | nil => intro a; simp
  | cons c rest ih =>
    intro a
    constructor
    · refine le_trans ?_ (ih _).1
      cases hc : c.cid with
      | int n => simp [hc, le_max_left]
      | str s => simp [hc]
    · intro c2 hc2 n hn
      rcases List.mem_cons.mp hc2 with rfl | hc2
      · refine le_trans ?_ (ih _).1
        dsimp only
        rw [hn]
        simp [le_max_right]
      · exact (ih _).2 c2 hc2 n hn

theorem maxIntId_ge (cells : List CellM) :
    ∀ c ∈ cells, ∀ n : Int, c.cid = PyVal.int n → n ≤ maxIntId cells := by
  intro c hc n hn
  exact (foldl_max_cid cells (-1)).2 c hc n hn

theorem editSaveCells_invs (t : Txt) :
    ((editSaveCells t).map CellM.cid).Nodup ∧
    (∀ c ∈ editSaveCells t, ∀ n : Int, c.cid = PyVal.int n → n < editSaveNextId t) := by
  unfold editSaveCells editSaveNextId editSaveResult
  dsimp only
  set cells := buildCells (parseData t) with hc
  have hnd : (cells.map CellM.cid).Nodup := buildCells_nodup (parseData t)
  have hmax := maxIntId_ge cells
  by_cases hfix : cells.isEmpty = true ∨ ((cells.getLast?.map CellM.isTextCell).getD false) = true
  · rw [if_pos hfix]
    dsimp only
    constructor
    · simp only [List.map_append, List.map_cons, List.map_nil]
      rw [List.nodup_append]
      refine ⟨hnd, List.nodup_singleton _, ?_⟩
      intro x hx hx1
      rw [List.mem_singleton] at hx1
      subst hx1
      rw [List.mem_map] at hx
      obtain ⟨c, hc2, hcid⟩ := hx
      show False
      have : (1 + maxIntId cells : Int) ≤ maxIntId cells := by
        apply hmax c hc2
        rw [hcid]
        rfl
      omega
    · intro c hc2 n hn
      rcases List.mem_append.mp hc2 with hc2 | hc2
      · have := hmax c hc2 n hn
        unfold setCellCounter
        omega
      · rw [List.mem_singleton] at hc2
        subst hc2
        simp only [CellM.cid] at hn
        injection hn with h2
        omega
  · rw [if_neg hfix]
    dsimp only
    refine ⟨hnd, ?_⟩
    intro c hc2 n hn
    have := hmax c hc2 n hn
    unfold setCellCounter
    omega

theorem editSaveW_WInv (w : WS) (t : Txt) : WInv (editSaveW w t) := by
  obtain ⟨hnd, hdom⟩ := editSaveCells_invs t
  constructor
  · show ((editSaveCells t).map CellM.cid).Nodup
    exact hnd
  · intro id hid n hn
    have hid2 : id ∈ (editSaveCells t).map CellM.cid := hid
    show n < editSaveNextId t
    rw [List.mem_map] at hid2
    obtain ⟨c, hc, hcid⟩ := hid2
    exact hdom c hc n (hcid.symm ▸ hn)

theorem pyInsert_perm {α : Type} (l : List α) (i : Nat) (x : α) :
    (pyInsert l i x).Perm (x :: l) := by
  unfold pyInsert
  calc (l.take i ++ x :: l.drop i).Perm (x :: (l.take i ++ l.drop i)) :=
        List.perm_middle
    _ = x :: l := by rw [List.take_append_drop]

theorem insert_fresh_WInv (w : WS) (hinv : WInv w) (l2 : List PyVal)
    (hperm : l2.Perm (PyVal.int w.nextId :: w.cellList)) :
    l2.Nodup ∧ ∀ id ∈ l2, ∀ n : Int, id = PyVal.int n → n < w.nextId + 1 := by
  obtain ⟨hnd, hdom⟩ := hinv
  constructor
  · apply hperm.symm.nodup
    rw [List.nodup_cons]
    refine ⟨?_, hnd⟩
    intro hmem
    have := hdom _ hmem w.nextId rfl
    omega
  · intro id hid n hn
    have hid2 := hperm.mem_iff.mp hid
    rcases List.mem_cons.mp hid2 with rfl | hid2
    · injection hn with h2
      omega
    · have := hdom id hid2 n hn
      omega

theorem newCellW_cid (w : WS) (b : Bool) (inp : Txt) :
    (newCellW w b inp).1.cid = PyVal.int w.nextId := by
  cases b <;> rfl

theorem newCellW_snd (w : WS) (b : Bool) (inp : Txt) :
    (newCellW w b inp).2 = { w with nextId := w.nextId + 1 } := rfl

theorem clearQueueW_frame (w : WS) :
    (clearQueueW w).cellList = w.cellList ∧ (clearQueueW w).nextId = w.nextId ∧
    (clearQueueW w).selfRef = w.selfRef := by
  unfold clearQueueW
  suffices h : ∀ (q : List PyVal) (w : WS),
      ((q.foldl (fun acc id => updateCell acc id
        (fun c => { c with interrupted := true })) w).cellList = w.cellList ∧
       (q.foldl (fun acc id => updateCell acc id
        (fun c => { c with interrupted := true })) w).nextId = w.nextId ∧
       (q.foldl (fun acc id => updateCell acc id
        (fun c => { c with interrupted := true })) w).selfRef = w.selfRef) by
    obtain ⟨h1, h2, h3⟩ := h w.queue w
    exact ⟨h1, h2, h3⟩
  intro q
  induction q with
  | nil => intro w; exact ⟨rfl, rfl, rfl⟩
  | cons a q ih =>
    intro w
    simp only [List.foldl_cons]
    obtain ⟨h1, h2, h3⟩ := ih (updateCell w a (fun c => { c with interrupted := true }))
    exact ⟨h1, h2, h3⟩

theorem startNextComp_WInv (w : WS) (hinv : WInv w) : WInv (startNextComp w) := by
  unfold startNextComp
  by_cases hq : w.queue.isEmpty
  · simpa [hq] using hinv
  · simp only [hq, Bool.false_eq_true, if_false]
    by_cases hc : w.computing
    · simpa [hc] using hinv
    · simp only [hc, Bool.false_eq_true, if_false]
      cases hhead : w.queue.head? with
      | none => exact hinv
      | some cid =>
        dsimp only
        cases hcell : getCellOrNone w cid with
        | none => exact hinv
        | some C =>
          dsimp only
          by_cases hint : C.interrupted
          · simpa [hint] using hinv
          · simp only [hint, Bool.false_eq_true, if_false]
            by_cases hsys : getCellSystem w C = some sageSystem ∧ C.introspect.isSome
            · rw [if_pos hsys]
              show WInv (startNextComp.startExec w cid C)
              unfold startNextComp.startExec
              simpa [updateCell] using hinv
            · rw [if_neg hsys]
              by_cases hres : C.cleanedInp ∈ restartKeywords
              · rw [if_pos hres]
                unfold restartSageEffect
                exact editSaveW_WInv _ _
              · rw [if_neg hres]
                show WInv (startNextComp.startExec w cid C)
                unfold startNextComp.startExec
                simpa [updateCell] using hinv

theorem applyOp_WInv (w : WS) (op : WOp) (hinv : WInv w) : WInv (applyOp w op) := by
  obtain ⟨hnd, hdom⟩ := hinv
  cases op with
  | editSaveOp t => exact editSaveW_WInv w t
  | appendNew =>
    unfold applyOp appendNewCellW
    dsimp only
    constructor
    · show ((newCellW w false []).2.cellList ++ [(newCellW w false []).1.cid]).Nodup
      rw [newCellW_cid, newCellW_snd]
      exact (insert_fresh_WInv w ⟨hnd, hdom⟩ (w.cellList ++ [PyVal.int w.nextId])
        (by simpa using List.perm_append_singleton _ _)).1
    · intro id2 hid2 n hn
      have hid3 : id2 ∈ (newCellW w false []).2.cellList ++ [(newCellW w false []).1.cid] :=
        hid2
      rw [newCellW_cid, newCellW_snd] at hid3
      show n < w.nextId + 1
      exact (insert_fresh_WInv w ⟨hnd, hdom⟩ (w.cellList ++ [PyVal.int w.nextId])
        (by simpa using List.perm_append_singleton _ _)).2 id2 hid3 n hn
  | newBefore isText id inp =>
    unfold applyOp newCellBeforeW
    dsimp only
    cases hidx : w.cellList.indexOf? id with
    | some i =>
      dsimp only
      constructor
      · show (pyInsert (newCellW w isText inp).2.cellList i
          (newCellW w isText inp).1.cid).Nodup
        rw [newCellW_cid, newCellW_snd]
        exact (insert_fresh_WInv w ⟨hnd, hdom⟩ _ (pyInsert_perm _ _ _)).1
      · intro id2 hid2 n hn
        have hid3 : id2 ∈ pyInsert (newCellW w isText inp).2.cellList i
            (newCellW w isText inp).1.cid := hid2
        rw [newCellW_cid, newCellW_snd] at hid3
        show n < w.nextId + 1
        exact (insert_fresh_WInv w ⟨hnd, hdom⟩ _ (pyInsert_perm _ _ _)).2 id2 hid3 n hn
    | none =>
      dsimp only
      constructor
      · show ((newCellW w isText inp).2.cellList ++ [(newCellW w isText inp).1.cid]).Nodup
        rw [newCellW_cid, newCellW_snd]
        exact (insert_fresh_WInv w ⟨hnd, hdom⟩ (w.cellList ++ [PyVal.int w.nextId])
          (by simpa using List.perm_append_singleton _ _)).1
      · intro id2 hid2 n hn
        have hid3 : id2 ∈ (newCellW w isText inp).2.cellList ++
            [(newCellW w isText inp).1.cid] := hid2
        rw [newCellW_cid, newCellW_snd] at hid3
        show n < w.nextId + 1
        exact (insert_fresh_WInv w ⟨hnd, hdom⟩ (w.cellList ++ [PyVal.int w.nextId])
          (by simpa using List.perm_append_singleton _ _)).2 id2 hid3 n hn
  | newAfter isText id inp =>
    unfold applyOp newCellAfterW
    dsimp only
    cases hidx : w.cellList.indexOf? id with
    | some i =>
      dsimp only
      constructor
      · show (pyInsert (newCellW w isText inp).2.cellList (i + 1)
          (newCellW w isText inp).1.cid).Nodup
        rw [newCellW_cid, newCellW_snd]
        exact (insert_fresh_WInv w ⟨hnd, hdom⟩ _ (pyInsert_perm _ _ _)).1
      · intro id2 hid2 n hn
        have hid3 : id2 ∈ pyInsert (newCellW w isText inp).2.cellList (i + 1)
            (newCellW w isText inp).1.cid := hid2
        rw [newCellW_cid, newCellW_snd] at hid3
        show n < w.nextId + 1
        exact (insert_fresh_WInv w ⟨hnd, hdom⟩ _ (pyInsert_perm _ _ _)).2 id2 hid3 n hn
    | none =>
      dsimp only
      constructor
      · show ((newCellW w isText inp).2.cellList ++ [(newCellW w isText inp).1.cid]).Nodup
        rw [newCellW_cid, newCellW_snd]
        exact (insert_fresh_WInv w ⟨hnd, hdom⟩ (w.cellList ++ [PyVal.int w.nextId])
          (by simpa using List.perm_append_singleton _ _)).1
      · intro id2 hid2 n hn
        have hid3 : id2 ∈ (newCellW w isText inp).2.cellList ++
            [(newCellW w isText inp).1.cid] := hid2
        rw [newCellW_cid, newCellW_snd] at hid3
        show n < w.nextId + 1
        exact (insert_fresh_WInv w ⟨hnd, hdom⟩ (w.cellList ++ [PyVal.int w.nextId])
          (by simpa using List.perm_append_singleton _ _)).2 id2 hid3 n hn
  | deleteOp id =>
    unfold applyOp deleteCellWithId
    dsimp only
    cases hidx : w.cellList.indexOf? id with
    | some i =>
      dsimp only
      by_cases hi : i > 0 <;>
        [rw [if_pos hi]; rw [if_neg hi]] <;>
        · refine ⟨?_, ?_⟩
          · exact hnd.sublist (List.eraseIdx_sublist _ i)
          · intro id2 hid2 n hn
            exact hdom id2 ((List.eraseIdx_sublist _ i).mem hid2) n hn
    | none =>
      exact ⟨hnd, hdom⟩
  | enqueueOp id now =>
    unfold applyOp
    dsimp only
    cases hcell : getCellOrNone w id with
    | none => exact ⟨hnd, hdom⟩
    | some c =>
      dsimp only
      unfold enqueue
      by_cases hpub : w.isPublished
      · simp only [hpub, if_true]
        exact ⟨hnd, hdom⟩
      · simp only [hpub, Bool.false_eq_true, if_false]
        by_cases hcomp : c.isCompute
        · simp only [hcomp, Bool.not_true, Bool.false_eq_true, if_false]
          by_cases hws : c.wsRef ≠ w.selfRef
          · simp only [if_pos hws]
            exact ⟨hnd, hdom⟩
          · simp only [if_neg hws]
            apply startNextComp_WInv
            by_cases hq : c.cid ∈ w.queue
            · simpa [hq] using And.intro hnd hdom
            · rw [if_neg hq]
              by_cases hasap : c.asap
              · simp only [hasap, if_true]
                exact ⟨hnd, hdom⟩
              · simp only [hasap, Bool.false_eq_true, if_false]
                exact ⟨hnd, hdom⟩
        · simp only [hcomp]
          simpa using And.intro hnd hdom

theorem applyOps_WInv (w : WS) (ops : List WOp) (hinv : WInv w) :
    WInv (applyOps w ops) := by
  unfold applyOps
  induction ops generalizing w with
  | nil => exact hinv
  | cons op ops ih =>
    simp only [List.foldl_cons]
    exact ih _ (applyOp_WInv w op hinv)

/-- C5: (1) after edit_save and any sequence of cell-insertion
(append_new_cell, new_cell_before/after, new_text_cell_before/after),
cell-deletion (delete_cell_with_id), reparse (edit_save) and enqueue
operations, the ids of the worksheet cell list are pairwise distinct;
(2) edit_save assigns a fresh id — the next available id, not in the ids set
nor among the used ids — to any compute block lacking an explicit id or whose
declared id was already consumed during the parse pass. -/
theorem C5_id_uniqueness :
    (∀ (w0 : WS) (t : Txt) (ops : List WOp),
      (applyOps (editSaveW w0 t) ops).cellList.Nodup) ∧
    (∀ (st : BuildSt) (meta : Meta) (inp out : Txt),
      (dictGet meta idKey = none ∨
        ∃ idv, dictGet meta idKey = some idv ∧ idv ∈ st.used) →
      (∀ x ∈ st.used, x ∈ st.ids) →
      ∃ fresh : Nat, buildStep st (DataItem.compute meta inp out) =
        { ids := PyVal.int fresh :: st.ids, used := PyVal.int fresh :: st.used,
          cells := st.cells ++ [CellM.compute (PyVal.int fresh) inp out] } ∧
        PyVal.int fresh ∉ st.ids ∧ PyVal.int fresh ∉ st.used) := by
  constructor
  · intro w0 t ops
    exact (applyOps_WInv (editSaveW w0 t) ops (editSaveW_WInv w0 t)).1
  · intro st meta inp out hcase hsub
    refine ⟨nextAvailableId st.ids, ?_, nextAvailableId_not_mem _, ?_⟩
    · unfold buildStep
      dsimp only
      rcases hcase with hnone | ⟨idv, hsome, hused⟩
      · rw [hnone]
      · rw [hsome]
        dsimp only
        rw [if_pos hused]
    · intro hmem
      exact nextAvailableId_not_mem _ (hsub _ hmem)

/-- C5, witness: distinct ids after a concrete op sequence, and a fresh id
for a concrete id-less compute block. -/
theorem C5_witness :
    ((applyOps (editSaveW c6W []) [WOp.appendNew, WOp.deleteOp (PyVal.int 0)]).cellList.Nodup) ∧
    (∃ fresh : Nat, buildStep c5St (DataItem.compute [] "x".toList []) =
      { ids := PyVal.int fresh :: c5St.ids, used := PyVal.int fresh :: c5St.used,
        cells := c5St.cells ++ [CellM.compute (PyVal.int fresh) "x".toList []] } ∧
      PyVal.int fresh ∉ c5St.ids ∧ PyVal.int fresh ∉ c5St.used) :=
  ⟨C5_id_uniqueness.1 c6W [] [WOp.appendNew, WOp.deleteOp (PyVal.int 0)],
   C5_id_uniqueness.2 c5St [] "x".toList [] (Or.inl (by decide)) (by decide)⟩

/-- C1, counterexample.  c1Bad parses (first pass) to a single compute cell
with input ///x; serializing with body() and reparsing with edit_save yields
a cell with a different (empty) input, because the serialized input line
merges with the newline before it into an output separator.  The body after
the second edit_save also differs from the body after the first, refuting
the claimed one-pass idempotence. -/
theorem C1_roundtrip_counterexample :
    (editSaveCells c1Bad).map CellM.inpTxt ≠
      (editSaveCells (body (editSaveCells c1Bad))).map CellM.inpTxt ∧
    body (editSaveCells (body (editSaveCells c1Bad))) ≠
      body (editSaveCells c1Bad) := by
  decide

theorem prefix_append_left {p a b : Txt} (h : p <+: a ++ b)
    (hl : p.length ≤ a.length) : p <+: a := by
  have h2 : p = (a ++ b).take p.length := List.prefix_iff_eq_take.mp h
  rw [List.take_append_of_le_length hl] at h2
  rw [h2]
  exact List.take_prefix _ _

theorem occursAt_append_inner {pat x y : Txt} {i : Nat}
    (h : occursAt pat (x ++ y) i) (hle : i + pat.length ≤ x.length) :
    occursAt pat x i := by
  unfold occursAt at h ⊢
  rw [List.drop_append_of_le_length (by omega)] at h
  exact prefix_append_left h (by simp; omega)

theorem occursAt_mono_take {pat t : Txt} {i k : Nat}
    (h : occursAt pat (t.take k) i) : occursAt pat t i := by
  unfold occursAt at h ⊢
  have h2 : (t.take k).drop i <+: t.drop i := by
    rw [List.drop_take]
    exact List.take_prefix _ _
  exact h.trans h2

theorem noSub_of_take {pat t : Txt} {k : Nat}
    (h : ∀ i, occursAt pat t i → k ≤ i) (hpat : pat ≠ []) :
    noSub pat (t.take k) := by
  intro i hocc
  have h1 := occursAt_mono_take hocc
  have h2 := h i h1
  unfold occursAt at hocc
  have h3 : pat.length ≤ ((t.take k).drop i).length := hocc.length_le
  simp only [List.length_drop, List.length_take] at h3
  have h4 : pat.length ≥ 1 := by
    cases pat with
    | nil => exact absurd rfl hpat
    | cons a l => simp
  omega

theorem findSub_at_canonical (pat x y : Txt) (hpat : pat ≠ [])
    (hno : ∀ i < x.length, ¬ occursAt pat (x ++ pat) i) :
    findSub pat (x ++ (pat ++ y)) = some x.length := by
  rw [findSub_eq_some_iff]
  constructor
  · show pat <+: (x ++ (pat ++ y)).drop x.length
    rw [List.drop_left]
    exact List.prefix_append pat y
  · intro i hi hocc
    apply hno i hi
    rw [show x ++ (pat ++ y) = (x ++ pat) ++ y from (List.append_assoc x pat y).symm] at hocc
    exact occursAt_append_inner hocc (by simp [List.length_append]; omega)

theorem crossing_shape {pat x : Txt} {i : Nat} (hi : i < x.length)
    (hcross : x.length < i + pat.length)
    (hocc : occursAt pat (x ++ pat) i) :
    pat.drop (x.length - i) = pat.take (pat.length - (x.length - i)) := by
  unfold occursAt at hocc
  rw [List.drop_append_of_le_length (by omega)] at hocc
  have hlen : (x.drop i).length = x.length - i := by simp
  have hpeq : pat = x.drop i ++ pat.take (pat.length - (x.length - i)) := by
    have h2 : pat = (x.drop i ++ pat).take pat.length :=
      List.prefix_iff_eq_take.mp hocc
    rw [List.take_append_eq_append_take, hlen] at h2
    rw [List.take_of_length_le (by omega)] at h2
    exact h2
  conv in pat.drop _ => rw [hpeq]
  rw [List.drop_append_eq_append_drop, hlen]
  simp only [Nat.sub_self, List.drop_zero]
  rw [List.drop_of_length_le (by omega)]
  simp

theorem no_crossing_sof {pat x : Txt} (hpat : pat ≠ [])
    (hnosub : noSub pat x) (hsof : selfOvFree pat) :
    ∀ i < x.length, ¬ occursAt pat (x ++ pat) i := by
  intro i hi hocc
  by_cases hin : i + pat.length ≤ x.length
  · exact hnosub i (occursAt_append_inner hocc hin)
  · have hcr := crossing_shape hi (by omega) hocc
    exact hsof (x.length - i) (by omega) (by omega) hcr

theorem no_crossing_lastchar {pat x : Txt} (hpat : pat ≠ [])
    (hnosub : noSub pat x)
    (hlast : ∀ d, x.getLast? = some d → d ∉ pat) :
    ∀ i < x.length, ¬ occursAt pat (x ++ pat) i := by
  intro i hi hocc
  by_cases hin : i + pat.length ≤ x.length
  · exact hnosub i (occursAt_append_inner hocc hin)
  · unfold occursAt at hocc
    rw [List.drop_append_of_le_length (by omega)] at hocc
    have hne : x.drop i ≠ [] := by
      intro h
      have := congrArg List.length h
      simp at this
      omega
    have hpre : x.drop i <+: pat := by
      have h2 : pat = (x.drop i ++ pat).take pat.length :=
        List.prefix_iff_eq_take.mp hocc
      rw [List.take_append_eq_append_take] at h2
      rw [List.take_of_length_le (by simp; omega)] at h2
      exact ⟨_, h2.symm⟩
    set d := (x.drop i).getLast hne with hd
    have hdx : x.getLast? = some d := by
      conv_lhs => rw [← List.take_append_drop i x]
      rw [List.getLast?_append_of_ne_nil _ hne]
      exact (List.getLast?_eq_getLast _ hne).symm ▸ rfl
    have hdpat : d ∈ pat := hpre.subset (List.getLast_mem hne)
    exact hlast d hdx hdpat

theorem lstrip_cons_nospace {c : Char} {s : Txt} (hc : pyIsSpace c = false) :
    lstrip (c :: s) = c :: s := by
  unfold lstrip
  rw [List.dropWhile_cons_of_neg (by simp [hc])]

theorem lstrip_cons_space {c : Char} {s : Txt} (hc : pyIsSpace c = true) :
    lstrip (c :: s) = lstrip s := by
  unfold lstrip
  rw [List.dropWhile_cons_of_pos (by simp [hc])]

theorem lstrip_eq_self {t : Txt} (h : ∀ c, t.head? = some c → pyIsSpace c = false) :
    lstrip t = t := by
  cases t with
  | nil => rfl
  | cons c s => exact lstrip_cons_nospace (h c rfl)

theorem rstrip_eq_self {t : Txt} (h : ∀ c, t.getLast? = some c → pyIsSpace c = false) :
    rstrip t = t := by
  unfold rstrip
  rw [lstrip_eq_self, List.reverse_reverse]
  intro c hc
  rw [List.head?_reverse] at hc
  exact h c hc

theorem strip_eq_self {t : Txt}
    (h1 : ∀ c, t.head? = some c → pyIsSpace c = false)
    (h2 : ∀ c, t.getLast? = some c → pyIsSpace c = false) :
    strip t = t := by
  unfold strip
  rw [lstrip_eq_self h1, rstrip_eq_self h2]

theorem strip_cons_space {c : Char} {s : Txt} (hc : pyIsSpace c = true) :
    strip (c :: s) = strip s := by
  unfold strip
  rw [lstrip_cons_space hc]

theorem lstrip_suffix (t : Txt) : lstrip t <:+ t := List.dropWhile_suffix _

theorem strip_infix (t : Txt) : strip t <:+: t := by
  unfold strip rstrip
  have h1 : ((lstrip (lstrip t).reverse).reverse) <+: (lstrip t) := by
    have h := List.reverse_prefix.mpr (lstrip_suffix ((lstrip t).reverse))
    rwa [List.reverse_reverse] at h
  exact h1.isInfix.trans (lstrip_suffix t).isInfix

theorem noSub_iff (pat t : Txt) :
    noSub pat t ↔ pat ≠ [] ∧ ∀ i < t.length, ¬ occursAt pat t i := by
  constructor
  · intro h
    refine ⟨?_, fun i _ => h i⟩
    intro hp
    exact h 0 (by simp [occursAt, hp])
  · rintro ⟨hne, h⟩ i hocc
    by_cases hi : i < t.length
    · exact h i hi hocc
    · unfold occursAt at hocc
      rw [List.drop_of_length_le (by omega)] at hocc
      exact hne (List.prefix_nil.mp hocc)

theorem prefix_head_agree {p s : Txt} (hp : p <+: s) (hne : p ≠ []) :
    s.head? = p.head? := by
  obtain ⟨r, hr⟩ := hp
  subst hr
  cases p with
  | nil => exact absurd rfl hne
  | cons a q => rfl

theorem rstrip_pre (t : Txt) : rstrip t <+: t := by
  unfold rstrip
  have h := List.reverse_prefix.mpr (lstrip_suffix t.reverse)
  rwa [List.reverse_reverse] at h

theorem lstrip_head_not_space : ∀ (t : Txt) (c : Char),
    (lstrip t).head? = some c → pyIsSpace c = false := by
  intro t
  induction t with
  | nil => intro c h; cases h
  | cons a s ih =>
    intro c h
    by_cases ha : pyIsSpace a = true
    · rw [lstrip_cons_space ha] at h
      exact ih c h
    · have ha' : pyIsSpace a = false := by revert ha; cases pyIsSpace a <;> simp
      rw [lstrip_cons_nospace ha'] at h
      simp only [List.head?_cons, Option.some.injEq] at h
      rw [← h]
      exact ha'

theorem rstrip_getLast_not_space (t : Txt) (c : Char)
    (h : (rstrip t).getLast? = some c) : pyIsSpace c = false := by
  unfold rstrip at h
  rw [List.getLast?_reverse] at h
  exact lstrip_head_not_space _ c h

theorem strip_getLast_not_space (t : Txt) (c : Char)
    (h : (strip t).getLast? = some c) : pyIsSpace c = false := by
  unfold strip at h
  exact rstrip_getLast_not_space _ c h

theorem strip_head_not_space (t : Txt) (c : Char)
    (h : (strip t).head? = some c) : pyIsSpace c = false := by
  unfold strip at h
  have hpre := rstrip_pre (lstrip t)
  have hne : rstrip (lstrip t) ≠ [] := by
    intro he
    rw [he] at h
    cases h
  exact lstrip_head_not_space t c ((prefix_head_agree hpre hne).trans h)

theorem strip_idem (t : Txt) : strip (strip t) = strip t :=
  strip_eq_self (strip_head_not_space t) (strip_getLast_not_space t)

theorem strip_nl_cons (s : Txt) : strip ('\n' :: s) = strip s :=
  strip_cons_space (by decide)

theorem digit_not_space {c : Char} (h : c.isDigit = true) : pyIsSpace c = false := by
  unfold pyIsSpace
  rw [decide_eq_false_iff_not]
  rintro (rfl | rfl | rfl | rfl | rfl | rfl) <;> exact absurd h (by decide)

theorem digit_ne {c : Char} (h : c.isDigit = true) {d : Char}
    (hd : d.isDigit = false) : c ≠ d := by
  intro he
  rw [he, hd] at h
  cases h

theorem digitsVal_append_one (xs : Txt) (c : Char) :
    digitsVal (xs ++ [c]) = digitsVal xs * 10 + (c.toNat - 48) := by
  unfold digitsVal
  rw [List.foldl_append]
  rfl

theorem charOfDigit_isDigit : ∀ d < 10, (Char.ofNat (48 + d)).isDigit = true := by
  decide

theorem charOfDigit_toNat : ∀ d < 10, (Char.ofNat (48 + d)).toNat = 48 + d := by
  decide

theorem natToTxtGo_spec : ∀ (f n : Nat), n < f →
    natToTxtGo f n ≠ [] ∧ (∀ c ∈ natToTxtGo f n, c.isDigit = true) ∧
      digitsVal (natToTxtGo f n) = n := by
  intro f
  induction f with
  | zero => intro n h; omega
  | succ f ih =>
    intro n hn
    by_cases h10 : n < 10
    · unfold natToTxtGo
      rw [if_pos h10]
      refine ⟨by simp, ?_, ?_⟩
      · intro c hc
        simp only [List.mem_singleton] at hc
        subst hc
        exact charOfDigit_isDigit n h10
      · unfold digitsVal
        simp only [List.foldl_cons, List.foldl_nil]
        rw [charOfDigit_toNat n h10]
        omega
    · unfold natToTxtGo
      rw [if_neg h10]
      have hrec : n / 10 < f := by omega
      obtain ⟨r1, r2, r3⟩ := ih (n / 10) hrec
      have hm : n % 10 < 10 := Nat.mod_lt _ (by norm_num)
      refine ⟨by simp, ?_, ?_⟩
      · intro c hc
        rw [List.mem_append] at hc
        rcases hc with hc | hc
        · exact r2 c hc
        · simp only [List.mem_singleton] at hc
          subst hc
          exact charOfDigit_isDigit _ hm
      · rw [digitsVal_append_one, r3, charOfDigit_toNat _ hm]
        omega

theorem natToTxt_spec (n : Nat) :
    natToTxt n ≠ [] ∧ (∀ c ∈ natToTxt n, c.isDigit = true) ∧
      digitsVal (natToTxt n) = n :=
  natToTxtGo_spec (n + 1) n (by omega)

theorem intToTxt_ne_nil (n : Int) : intToTxt n ≠ [] := by
  unfold intToTxt
  split
  · simp
  · exact (natToTxt_spec n.toNat).1

theorem intToTxt_chars (n : Int) :
    ∀ c ∈ intToTxt n, c.isDigit = true ∨ c = '-' := by
  unfold intToTxt
  split
  · intro c hc
    rcases List.mem_cons.mp hc with rfl | hc
    · exact Or.inr rfl
    · exact Or.inl ((natToTxt_spec n.natAbs).2.1 c hc)
  · intro c hc
    exact Or.inl ((natToTxt_spec n.toNat).2.1 c hc)

theorem parseIntLit_natToTxt (n : Nat) :
    parseIntLit (natToTxt n) = some (n : Int) := by
  obtain ⟨h1, h2, h3⟩ := natToTxt_spec n
  cases hgo : natToTxt n with
  | nil => exact absurd hgo h1
  | cons c rest =>
    rw [hgo] at h2 h3
    have hc : c.isDigit = true := h2 c (by simp)
    unfold parseIntLit
    dsimp only
    rw [if_neg (digit_ne hc (by decide))]
    rw [if_neg (digit_ne hc (by decide))]
    rw [if_pos (List.all_eq_true.mpr (fun x hx => h2 x hx))]
    rw [h3]

theorem parseIntLit_intToTxt (n : Int) :
    parseIntLit (intToTxt n) = some n := by
  by_cases hneg : n < 0
  · unfold intToTxt
    rw [if_pos hneg]
    obtain ⟨h1, h2, h3⟩ := natToTxt_spec n.natAbs
    unfold parseIntLit
    dsimp only
    rw [if_pos rfl]
    rw [if_pos ⟨h1, List.all_eq_true.mpr (fun x hx => h2 x hx)⟩]
    rw [h3]
    congr 1
    omega
  · unfold intToTxt
    rw [if_neg hneg]
    rw [parseIntLit_natToTxt]
    congr 1
    omega

theorem splitOnChar_no_sep (sep : Char) : ∀ (t : Txt), (∀ c ∈ t, c ≠ sep) →
    splitOnChar sep t = [t] := by
  intro t
  induction t with
  | nil => intro _; rfl
  | cons a s ih =>
    intro h
    unfold splitOnChar
    rw [ih (fun c hc => h c (List.mem_cons_of_mem a hc))]
    dsimp only
    rw [if_neg (h a (List.mem_cons_self a s))]

theorem splitOnChar_single_sep (sep : Char) (b : Txt) : ∀ (a : Txt),
    (∀ c ∈ a, c ≠ sep) → (∀ c ∈ b, c ≠ sep) →
    splitOnChar sep (a ++ sep :: b) = [a, b] := by
  intro a
  induction a with
  | nil =>
    intro _ hb
    rw [List.nil_append]
    unfold splitOnChar
    rw [splitOnChar_no_sep sep b hb]
    dsimp only
    rw [if_pos rfl]
  | cons x a' ih =>
    intro ha hb
    have hx : x ≠ sep := ha x (by simp)
    rw [List.cons_append]
    unfold splitOnChar
    rw [ih (fun c hc => ha c (List.mem_cons_of_mem x hc)) hb]
    dsimp only
    rw [if_neg hx]

theorem dictify_idblock (K : Txt) (hK : K ≠ [])
    (hd : ∀ c ∈ K, c.isDigit = true ∨ c = '-') :
    dictify (idKey ++ ['='] ++ K) = [(idKey, evalLit K)] := by
  have hKne : ∀ c ∈ K, c ≠ ',' ∧ c ≠ '=' ∧ pyIsSpace c = false := by
    intro c hc
    rcases hd c hc with h | rfl
    · exact ⟨digit_ne h (by decide), digit_ne h (by decide), digit_not_space h⟩
    · exact ⟨by decide, by decide, by decide⟩
  have hsplit1 : splitOnChar ',' (idKey ++ ['='] ++ K) = [idKey ++ ['='] ++ K] := by
    apply splitOnChar_no_sep
    intro c hc
    rw [List.mem_append, List.mem_append] at hc
    rcases hc with (hc | hc) | hc
    · simp only [idKey, List.mem_cons, List.not_mem_nil, or_false] at hc
      rcases hc with rfl | rfl
      · decide
      · decide
    · simp only [List.mem_singleton] at hc
      subst hc
      decide
    · exact (hKne c hc).1
  have hstrip : strip (idKey ++ ['='] ++ K) = idKey ++ ['='] ++ K := by
    apply strip_eq_self
    · intro c hc
      simp only [idKey] at hc
      simp only [List.append_assoc, List.cons_append, List.nil_append,
        List.head?_cons, Option.some.injEq] at hc
      rw [← hc]
      decide
    · intro c hc
      rw [List.getLast?_append_of_ne_nil _ hK] at hc
      have := List.mem_of_mem_getLast? hc
      exact (hKne c this).2.2
  have hsplit2 : splitOnChar '=' (idKey ++ ['='] ++ K) = [idKey, K] := by
    rw [List.append_assoc]
    have : (['='] : Txt) ++ K = '=' :: K := rfl
    rw [this]
    apply splitOnChar_single_sep
    · intro c hc
      simp only [idKey, List.mem_cons, List.not_mem_nil] at hc
      rcases hc with rfl | rfl | h
      · decide
      · decide
      · cases h
    · intro c hc
      exact (hKne c hc).2.1
  unfold dictify
  rw [hsplit1]
  unfold dictifyPairs
  rw [hstrip, hsplit2]
  rfl

theorem hno_single {c : Char} {x : Txt} (h : ∀ d ∈ x, d ≠ c) :
    ∀ i < x.length, ¬ occursAt [c] (x ++ [c]) i := by
  intro i hi hocc
  have hocc' : occursAt [c] x i := occursAt_append_inner hocc (by simp; omega)
  unfold occursAt at hocc'
  obtain ⟨r, hr⟩ := hocc'
  have hcx : c ∈ x := by
    have hmem : c ∈ x.drop i := by
      rw [← hr]
      simp
    exact List.mem_of_mem_drop hmem
  exact h c hcx rfl

theorem extract_block (pre rest inp out : Txt) (n : Int)
    (hpre : noSub openDelim pre)
    (hlast : ∀ d, pre.getLast? = some d → d ≠ lbr)
    (hsep : noSub sepNl ('\n' :: strip inp))
    (hclose : noSub closeNl ('\n' :: (strip inp ++ sepNl ++ '\n' :: strip out))) :
    extractFirstComputeCell
        (pre ++ cellEditText (CellM.compute (PyVal.int n) inp out) ++ rest) =
      some ([(idKey, PyVal.int n)], strip inp, '\n' :: strip out,
        pre.length + (cellEditText (CellM.compute (PyVal.int n) inp out)).length) ∧
    (pre ++ cellEditText (CellM.compute (PyVal.int n) inp out) ++ rest).drop
        (pre.length + (cellEditText (CellM.compute (PyVal.int n) inp out)).length) = rest ∧
    extractTextBeforeFirstComputeCell
        (pre ++ cellEditText (CellM.compute (PyVal.int n) inp out) ++ rest) = pre := by
  have hBdef : cellEditText (CellM.compute (PyVal.int n) inp out) =
      openDelim ++ idKey ++ ['='] ++ intToTxt n ++ ['|', '\n'] ++ strip inp ++
        sepNl ++ ['\n'] ++ strip out ++ closeNl := rfl
  have hKc : ∀ d ∈ intToTxt n, d ≠ '\n' ∧ d ≠ '|' := by
    intro d hd
    rcases intToTxt_chars n d hd with h | rfl
    · exact ⟨digit_ne h (by decide), digit_ne h (by decide)⟩
    · exact ⟨by decide, by decide⟩
  have hno1 : ∀ i < pre.length, ¬ occursAt openDelim (pre ++ openDelim) i := by
    refine no_crossing_lastchar (by decide) hpre ?_
    intro d hd hmem
    simp only [openDelim, List.mem_cons, List.not_mem_nil, or_false] at hmem
    rcases hmem with rfl | rfl | rfl <;> exact hlast _ hd rfl
  have f1 : findSub openDelim
      (pre ++ cellEditText (CellM.compute (PyVal.int n) inp out) ++ rest) = some pre.length := by
    have e1 : pre ++ cellEditText (CellM.compute (PyVal.int n) inp out) ++ rest =
        pre ++ (openDelim ++ (idKey ++ ['='] ++ intToTxt n ++ ['|', '\n'] ++ strip inp ++
          sepNl ++ ['\n'] ++ strip out ++ closeNl ++ rest)) := by
      rw [hBdef]
      simp only [List.append_assoc]
    rw [e1]
    exact findSub_at_canonical openDelim pre _ (by decide) hno1
  have hx2 : ∀ d ∈ openDelim ++ idKey ++ ['='] ++ intToTxt n ++ ['|'], d ≠ '\n' := by
    intro d hd
    rw [List.mem_append] at hd
    rcases hd with hd | hd
    · rw [List.mem_append] at hd
      rcases hd with hd | hd
      · rw [List.mem_append] at hd
        rcases hd with hd | hd
        · rw [List.mem_append] at hd
          rcases hd with hd | hd
          · simp only [openDelim, List.mem_cons, List.not_mem_nil, or_false] at hd
            rcases hd with rfl | rfl | rfl <;> decide
          · simp only [idKey, List.mem_cons, List.not_mem_nil, or_false] at hd
            rcases hd with rfl | rfl <;> decide
        · simp only [List.mem_singleton] at hd
          subst hd
          decide
      · exact (hKc d hd).1
    · simp only [List.mem_singleton] at hd
      subst hd
      decide
  have hx3 : ∀ d ∈ openDelim ++ idKey ++ ['='] ++ intToTxt n, d ≠ '|' := by
    intro d hd
    rw [List.mem_append] at hd
    rcases hd with hd | hd
    · rw [List.mem_append] at hd
      rcases hd with hd | hd
      · rw [List.mem_append] at hd
        rcases hd with hd | hd
        · simp only [openDelim, List.mem_cons, List.not_mem_nil, or_false] at hd
          rcases hd with rfl | rfl | rfl <;> decide
        · simp only [idKey, List.mem_cons, List.not_mem_nil, or_false] at hd
          rcases hd with rfl | rfl <;> decide
      · simp only [List.mem_singleton] at hd
        subst hd
        decide
    · exact (hKc d hd).2
  have f2 : findSub ['\n']
      (cellEditText (CellM.compute (PyVal.int n) inp out) ++ rest) =
      some (7 + (intToTxt n).length) := by
    have e2 : cellEditText (CellM.compute (PyVal.int n) inp out) ++ rest =
        (openDelim ++ idKey ++ ['='] ++ intToTxt n ++ ['|']) ++ (['\n'] ++
          (strip inp ++ sepNl ++ ['\n'] ++ strip out ++ closeNl ++ rest)) := by
      rw [hBdef]
      simp only [List.append_assoc, List.cons_append, List.nil_append]
    rw [e2, findSub_at_canonical ['\n'] _ _ (by decide) (hno_single hx2)]
    congr 1
    simp only [List.length_append, List.length_cons, List.length_nil, openDelim, idKey]
    omega
  have f3 : findSub ['|']
      (cellEditText (CellM.compute (PyVal.int n) inp out) ++ rest) =
      some (6 + (intToTxt n).length) := by
    have e3 : cellEditText (CellM.compute (PyVal.int n) inp out) ++ rest =
        (openDelim ++ idKey ++ ['='] ++ intToTxt n) ++ (['|'] ++ (['\n'] ++
          (strip inp ++ sepNl ++ ['\n'] ++ strip out ++ closeNl ++ rest))) := by
      rw [hBdef]
      simp only [List.append_assoc, List.cons_append, List.nil_append]
    rw [e3, findSub_at_canonical ['|'] _ _ (by decide) (hno_single hx3)]
    congr 1
    simp only [List.length_append, List.length_cons, List.length_nil, openDelim, idKey]
  have hdropPre : (pre ++ cellEditText (CellM.compute (PyVal.int n) inp out) ++ rest).drop
      pre.length = cellEditText (CellM.compute (PyVal.int n) inp out) ++ rest := by
    rw [List.append_assoc]
    exact List.drop_left _ _
  have hev : evalLit (intToTxt n) = PyVal.int n := by
    unfold evalLit
    rw [parseIntLit_intToTxt]
  have hslice1 : pySlice (pre ++ cellEditText (CellM.compute (PyVal.int n) inp out) ++ rest)
      (pre.length + 3) (pre.length + (6 + (intToTxt n).length)) =
      idKey ++ ['='] ++ intToTxt n := by
    unfold pySlice
    have e4 : pre ++ cellEditText (CellM.compute (PyVal.int n) inp out) ++ rest =
        (pre ++ openDelim) ++ ((idKey ++ ['='] ++ intToTxt n) ++
          (['|', '\n'] ++ (strip inp ++ sepNl ++ ['\n'] ++ strip out ++ closeNl ++ rest))) := by
      rw [hBdef]
      simp only [List.append_assoc]
    rw [e4, List.drop_left' (by simp [openDelim]),
        List.take_left' (by simp only [List.length_append, List.length_cons,
          List.length_nil, idKey]; omega)]
  have hdrop2 : (pre ++ cellEditText (CellM.compute (PyVal.int n) inp out) ++ rest).drop
      (pre.length + (6 + (intToTxt n).length) + 1) =
      ('\n' :: (strip inp ++ sepNl ++ '\n' :: strip out)) ++ (closeNl ++ rest) := by
    have e5 : pre ++ cellEditText (CellM.compute (PyVal.int n) inp out) ++ rest =
        (pre ++ openDelim ++ idKey ++ ['='] ++ intToTxt n ++ ['|']) ++
          (('\n' :: (strip inp ++ sepNl ++ '\n' :: strip out)) ++ (closeNl ++ rest)) := by
      rw [hBdef]
      simp only [List.append_assoc, List.cons_append, List.nil_append]
    rw [e5, List.drop_left' (by simp only [List.length_append, List.length_cons,
      List.length_nil, openDelim, idKey]; omega)]
  have f5 : findSub closeNl
      (('\n' :: (strip inp ++ sepNl ++ '\n' :: strip out)) ++ (closeNl ++ rest)) =
      some ('\n' :: (strip inp ++ sepNl ++ '\n' :: strip out)).length :=
    findSub_at_canonical closeNl _ rest (by decide)
      (no_crossing_sof (by decide) hclose (by decide))
  have e6 : ('\n' :: (strip inp ++ sepNl ++ '\n' :: strip out)) ++ (closeNl ++ rest) =
      ('\n' :: strip inp) ++ (sepNl ++ ('\n' :: strip out ++ (closeNl ++ rest))) := by
    simp only [List.append_assoc, List.cons_append]
  have f6 : findSub sepNl
      (('\n' :: (strip inp ++ sepNl ++ '\n' :: strip out)) ++ (closeNl ++ rest)) =
      some ('\n' :: strip inp).length := by
    rw [e6]
    exact findSub_at_canonical sepNl _ _ (by decide)
      (no_crossing_sof (by decide) hsep (by decide))
  have hslice2 : pySlice (pre ++ cellEditText (CellM.compute (PyVal.int n) inp out) ++ rest)
      (pre.length + (6 + (intToTxt n).length) + 1)
      (pre.length + (6 + (intToTxt n).length) + 1 + ('\n' :: strip inp).length) =
      '\n' :: strip inp := by
    unfold pySlice
    rw [hdrop2, e6, List.take_left' (by simp only [List.length_cons]; omega)]
  have hslice3 : pySlice (pre ++ cellEditText (CellM.compute (PyVal.int n) inp out) ++ rest)
      (pre.length + (6 + (intToTxt n).length) + 1 + ('\n' :: strip inp).length + 4)
      (('\n' :: (strip inp ++ sepNl ++ '\n' :: strip out)).length +
        (pre.length + (6 + (intToTxt n).length) + 1)) =
      '\n' :: strip out := by
    unfold pySlice
    have e8 : pre ++ cellEditText (CellM.compute (PyVal.int n) inp out) ++ rest =
        (pre ++ openDelim ++ idKey ++ ['='] ++ intToTxt n ++ ['|', '\n'] ++ strip inp ++ sepNl)
          ++ (('\n' :: strip out) ++ (closeNl ++ rest)) := by
      rw [hBdef]
      simp only [List.append_assoc, List.cons_append, List.nil_append]
    rw [e8, List.drop_left' (by simp only [List.length_append, List.length_cons,
        List.length_nil, openDelim, idKey, sepNl]; omega),
      List.take_left' (by simp only [List.length_append, List.length_cons,
        List.length_nil, sepNl]; omega)]
  have hlenB : ('\n' :: (strip inp ++ sepNl ++ '\n' :: strip out)).length +
      (pre.length + (6 + (intToTxt n).length) + 1) + 4 =
      pre.length + (cellEditText (CellM.compute (PyVal.int n) inp out)).length := by
    rw [hBdef]
    simp only [List.length_append, List.length_cons, List.length_nil, openDelim, idKey,
      sepNl, closeNl]
    omega
  refine ⟨?_, ?_, ?_⟩
  · unfold extractFirstComputeCell
    rw [f1]
    dsimp only
    rw [hdropPre, f2, f3]
    dsimp only
    rw [if_pos (by omega : 6 + (intToTxt n).length < 7 + (intToTxt n).length)]
    dsimp only
    rw [hslice1, dictify_idblock _ (intToTxt_ne_nil n) (intToTxt_chars n), hev]
    rw [hdrop2, f5, f6]
    dsimp only
    rw [if_neg (by simp only [List.length_cons, List.length_append, sepNl,
      List.length_nil]; omega)]
    rw [hslice2, strip_nl_cons, strip_idem, strip_idem, hslice3, hlenB]
  · have hlen2 : (pre ++ cellEditText (CellM.compute (PyVal.int n) inp out)).length =
        pre.length + (cellEditText (CellM.compute (PyVal.int n) inp out)).length := by
      simp
    rw [← hlen2]
    exact List.drop_left _ _
  · unfold extractTextBeforeFirstComputeCell
    rw [f1]
    dsimp only
    rw [List.append_assoc]
    exact List.take_left _ _

theorem strip_cellEditText (i : PyVal) (inp out : Txt) :
    strip (cellEditText (CellM.compute i inp out)) = cellEditText (CellM.compute i inp out) := by
  apply strip_eq_self
  · intro c hc
    rw [show (cellEditText (CellM.compute i inp out)).head? = some lbr from rfl] at hc
    simp only [Option.some.injEq] at hc
    rw [← hc]
    decide
  · intro c hc
    have e : cellEditText (CellM.compute i inp out) =
        (openDelim ++ idKey ++ ['='] ++ pyValText i ++ ['|', '\n'] ++ strip inp ++
          sepNl ++ ['\n'] ++ strip out) ++ closeNl := rfl
    rw [e, List.getLast?_append_of_ne_nil _ (by decide)] at hc
    rw [show closeNl.getLast? = some rbr from rfl] at hc
    simp only [Option.some.injEq] at hc
    rw [← hc]
    decide

theorem cellEditText_compute_ne_nil (i : PyVal) (inp out : Txt) :
    cellEditText (CellM.compute i inp out) ≠ [] := by
  intro h
  have hh : (cellEditText (CellM.compute i inp out)).head? = some lbr := rfl
  rw [h] at hh
  cases hh

theorem body_go (L : List CellM) : ∀ (s : Txt), (∀ c ∈ L, c.isComputeCell = true) →
    List.foldl (fun s c =>
      let t := strip (cellEditText c)
      if t = [] then s else s ++ ['\n', '\n'] ++ t) s L = s ++ bodyBlocks L := by
  induction L with
  | nil =>
    intro s _
    simp [bodyBlocks]
  | cons c L' ih =>
    intro s hall
    rw [List.foldl_cons]
    have hc := hall c (List.mem_cons_self c L')
    obtain ⟨i, inp, out, rfl⟩ : ∃ i inp out, c = CellM.compute i inp out := by
      cases c with
      | compute i inp out => exact ⟨i, inp, out, rfl⟩
      | textc i t => simp [CellM.isComputeCell] at hc
    dsimp only
    rw [strip_cellEditText, if_neg (cellEditText_compute_ne_nil i inp out)]
    rw [ih _ (fun d hd => hall d (List.mem_cons_of_mem _ hd))]
    rw [show bodyBlocks (CellM.compute i inp out :: L') =
      '\n' :: '\n' :: (cellEditText (CellM.compute i inp out) ++ bodyBlocks L') from rfl]
    simp [List.append_assoc]

theorem body_eq_bodyBlocks (L : List CellM) (h : ∀ c ∈ L, c.isComputeCell = true) :
    body L = bodyBlocks L := by
  unfold body
  rw [body_go L [] h]
  rfl

theorem bodyBlocks_length (L : List CellM) : L.length ≤ (bodyBlocks L).length := by
  induction L with
  | nil => simp [bodyBlocks]
  | cons c L' ih =>
    simp only [bodyBlocks, List.length_cons, List.length_append]
    omega

theorem parseDataGo_bodyBlocks : ∀ (L : List CellM) (fuel : Nat),
    L.length < fuel → (∀ c ∈ L, CleanCell c) →
    parseDataGo fuel (bodyBlocks L) = L.map parsedItem := by
  intro L
  induction L with
  | nil =>
    intro fuel hf _
    cases fuel with
    | zero => omega
    | succ f => rfl
  | cons c L' ih =>
    intro fuel hf hcl
    cases fuel with
    | zero => omega
    | succ f =>
      have hc := hcl c (List.mem_cons_self c L')
      obtain ⟨id, inp, out, rfl⟩ : ∃ id inp out, c = CellM.compute id inp out := by
        cases c with
        | compute id inp out => exact ⟨id, inp, out, rfl⟩
        | textc id t => exact absurd hc.1 (by simp [CellM.isComputeCell])
      obtain ⟨m, rfl⟩ : ∃ m : Int, id = PyVal.int m := by
        cases id with
        | int m => exact ⟨m, rfl⟩
        | str s => exact absurd hc.2.1 (by simp [PyVal.isInt, CellM.cid])
      have hsep : noSub sepNl ('\n' :: strip inp) := hc.2.2.1
      have hclose : noSub closeNl ('\n' :: (strip inp ++ sepNl ++ '\n' :: strip out)) :=
        hc.2.2.2
      have etext : bodyBlocks (CellM.compute (PyVal.int m) inp out :: L') =
          ['\n', '\n'] ++ cellEditText (CellM.compute (PyVal.int m) inp out) ++
            bodyBlocks L' := by
        rw [show bodyBlocks (CellM.compute (PyVal.int m) inp out :: L') =
          '\n' :: '\n' :: (cellEditText (CellM.compute (PyVal.int m) inp out) ++
            bodyBlocks L') from rfl]
        simp [List.append_assoc]
      obtain ⟨hx, hdrop, htb⟩ := extract_block ['\n', '\n'] (bodyBlocks L') inp out m
        (by decide)
        (by intro d hd
            simp only [show (['\n', '\n'] : Txt).getLast? = some '\n' from rfl,
              Option.some.injEq] at hd
            rw [← hd]
            decide)
        hsep hclose
      rw [etext]
      unfold parseDataGo
      rw [htb, hx]
      dsimp only
      rw [show strip (['\n', '\n'] : Txt) = [] from rfl]
      rw [if_neg (fun h => h rfl)]
      rw [hdrop]
      rw [ih f (by simp at hf; omega) (fun d hd => hcl d (List.mem_cons_of_mem _ hd))]
      simp [parsedItem, CellM.cid, CellM.inpTxt, CellM.outTxt]

theorem dictGet_single (v : PyVal) : dictGet [(idKey, v)] idKey = some v := rfl

theorem declaredIds_map : ∀ (L : List CellM),
    declaredIds (L.map parsedItem) = L.map CellM.cid := by
  intro L
  induction L with
  | nil => rfl
  | cons c L' ih =>
    have step : declaredIds (parsedItem c :: L'.map parsedItem) =
        c.cid :: declaredIds (L'.map parsedItem) := rfl
    rw [List.map_cons, step, ih, List.map_cons]

theorem buildFold_keep : ∀ (L : List CellM) (st : BuildSt),
    (∀ c ∈ L, c.cid ∉ st.used) → (L.map CellM.cid).Nodup →
    (List.foldl buildStep st (L.map parsedItem)).cells =
      st.cells ++ L.map (fun c =>
        CellM.compute c.cid (strip c.inpTxt) ('\n' :: strip c.outTxt)) := by
  intro L
  induction L with
  | nil =>
    intro st _ _
    simp
  | cons c L' ih =>
    intro st hdisj hnd
    rw [List.map_cons, List.map_cons, List.foldl_cons]
    have hstep : buildStep st (parsedItem c) =
        { ids := st.ids, used := c.cid :: st.used,
          cells := st.cells ++
            [CellM.compute c.cid (strip c.inpTxt) ('\n' :: strip c.outTxt)] } := by
      show buildStep st
        (DataItem.compute [(idKey, c.cid)] (strip c.inpTxt) ('\n' :: strip c.outTxt)) = _
      unfold buildStep
      dsimp only
      rw [dictGet_single]
      dsimp only
      rw [if_neg (hdisj c (List.mem_cons_self c L'))]
    rw [hstep]
    rw [ih _ ?_ (List.nodup_cons.mp hnd).2]
    · simp [List.append_assoc]
    · intro d hd hmem
      rcases List.mem_cons.mp hmem with he | hmem'
      · exact (List.nodup_cons.mp hnd).1 (by rw [← he]; exact List.mem_map_of_mem _ hd)
      · exact hdisj d (List.mem_cons_of_mem _ hd) hmem'

theorem buildCells_map (L : List CellM) (hcomp : ∀ c ∈ L, c.isComputeCell = true)
    (hnd : (L.map CellM.cid).Nodup) :
    buildCells (L.map parsedItem) = L.map normCell := by
  unfold buildCells
  rw [buildFold_keep L _ (by intro d _ hmem; exact absurd hmem (List.not_mem_nil _)) hnd]
  rw [List.nil_append]
  refine List.map_eq_map_iff.mpr ?_
  intro c hc
  have h := hcomp c hc
  cases c with
  | compute i inp out => rfl
  | textc i t => simp [CellM.isComputeCell] at h

theorem editSaveCells_body (L : List CellM) (hne : L ≠ [])
    (hcl : ∀ c ∈ L, CleanCell c) (hnd : (L.map CellM.cid).Nodup) :
    editSaveCells (body L) = L.map normCell := by
  have hcomp : ∀ c ∈ L, c.isComputeCell = true := fun c hc => (hcl c hc).1
  have hdata : parseData (body L) = L.map parsedItem := by
    rw [body_eq_bodyBlocks L hcomp]
    unfold parseData
    exact parseDataGo_bodyBlocks L _ (by have := bodyBlocks_length L; omega) hcl
  unfold editSaveCells editSaveResult
  dsimp only
  rw [hdata, buildCells_map L hcomp hnd]
  have hmapne : L.map normCell ≠ [] := by
    intro h
    exact hne (List.map_eq_nil.mp h)
  rw [if_neg ?_]
  · intro hor
    rcases hor with hemp | hlast
    · rw [List.isEmpty_iff] at hemp
      exact hmapne hemp
    · rw [List.getLast?_map] at hlast
      cases hL : L.getLast? with
      | none => rw [hL] at hlast; simp at hlast
      | some d =>
        rw [hL] at hlast
        have hd : d ∈ L := List.mem_of_mem_getLast? hL
        have hdc := hcomp d hd
        cases d with
        | compute i inp out => simp [normCell, CellM.isTextCell] at hlast
        | textc i t => simp [CellM.isComputeCell] at hdc

theorem cellEditText_normCell (c : CellM) (h : c.isComputeCell = true) :
    cellEditText (normCell c) = cellEditText c := by
  cases c with
  | textc i t => simp [CellM.isComputeCell] at h
  | compute i inp out =>
    show cellEditText (CellM.compute i (strip inp) ('\n' :: strip out)) = _
    unfold cellEditText
    dsimp only
    rw [strip_idem, strip_nl_cons, strip_idem]

theorem bodyBlocks_map_normCell : ∀ (L : List CellM),
    (∀ c ∈ L, c.isComputeCell = true) → bodyBlocks (L.map normCell) = bodyBlocks L := by
  intro L
  induction L with
  | nil => intro _; rfl
  | cons c L' ih =>
    intro hall
    rw [List.map_cons]
    rw [show bodyBlocks (normCell c :: L'.map normCell) =
      '\n' :: '\n' :: (cellEditText (normCell c) ++ bodyBlocks (L'.map normCell)) from rfl]
    rw [show bodyBlocks (c :: L') = '\n' :: '\n' :: (cellEditText c ++ bodyBlocks L') from rfl]
    rw [cellEditText_normCell c (hall c (List.mem_cons_self c L'))]
    rw [ih (fun d hd => hall d (List.mem_cons_of_mem _ hd))]

theorem normCell_isComputeCell (c : CellM) : (normCell c).isComputeCell = c.isComputeCell := by
  cases c <;> rfl

theorem normCell_cid (c : CellM) : (normCell c).cid = c.cid := by
  cases c <;> rfl

theorem body_normCell (L : List CellM) (hcomp : ∀ c ∈ L, c.isComputeCell = true) :
    body (L.map normCell) = body L := by
  rw [body_eq_bodyBlocks L hcomp]
  rw [body_eq_bodyBlocks (L.map normCell) ?_]
  · exact bodyBlocks_map_normCell L hcomp
  · intro c hc
    rw [List.mem_map] at hc
    obtain ⟨d, hd, rfl⟩ := hc
    rw [normCell_isComputeCell]
    exact hcomp d hd

theorem CleanCell_normCell {c : CellM} (h : CleanCell c) : CleanCell (normCell c) := by
  obtain ⟨h1, h2, h3, h4⟩ := h
  cases c with
  | textc i t => simp [CellM.isComputeCell] at h1
  | compute i inp out =>
    refine ⟨rfl, h2, ?_, ?_⟩
    · show noSub sepNl ('\n' :: strip (strip inp))
      rw [strip_idem]
      exact h3
    · show noSub closeNl ('\n' :: (strip (strip inp) ++ sepNl ++ '\n' ::
        strip ('\n' :: strip out)))
      rw [strip_idem, strip_nl_cons, strip_idem]
      exact h4

theorem normCell_idem (c : CellM) : normCell (normCell c) = normCell c := by
  cases c with
  | compute i inp out =>
    show CellM.compute i (strip (strip inp)) ('\n' :: strip ('\n' :: strip out)) = _
    rw [strip_idem, strip_nl_cons, strip_idem]
    rfl
  | textc i t =>
    show CellM.textc i (strip (strip t)) = _
    rw [strip_idem]
    rfl

/-- C1: markup round-trip.  For every nonempty list of integer-id compute
cells with pairwise distinct ids whose contents do not collide with the
markup delimiters, reparsing the serialized body with edit_save yields the
cell list in normal form (same ids, inputs stripped, outputs stripped with
the separator newline kept), the normal form serializes to the same body,
and the parse-serialize pass is idempotent: a second edit_save(body()) leaves
the cell list unchanged. -/
theorem C1_roundtrip_amended (L : List CellM) (h1 : L ≠ [])
    (h2 : ∀ c ∈ L, CleanCell c) (h3 : (L.map CellM.cid).Nodup) :
    editSaveCells (body L) = L.map normCell ∧
    body (L.map normCell) = body L ∧
    editSaveCells (body (editSaveCells (body L))) = editSaveCells (body L) := by
  have hcomp : ∀ c ∈ L, c.isComputeCell = true := fun c hc => (h2 c hc).1
  have main := editSaveCells_body L h1 h2 h3
  refine ⟨main, body_normCell L hcomp, ?_⟩
  rw [main]
  have h1' : L.map normCell ≠ [] := by
    intro h
    exact h1 (List.map_eq_nil.mp h)
  have h2' : ∀ c ∈ L.map normCell, CleanCell c := by
    intro c hc
    rw [List.mem_map] at hc
    obtain ⟨d, hd, rfl⟩ := hc
    exact CleanCell_normCell (h2 d hd)
  have h3' : ((L.map normCell).map CellM.cid).Nodup := by
    rw [List.map_map]
    rw [show CellM.cid ∘ normCell = CellM.cid from funext normCell_cid]
    exact h3
  rw [editSaveCells_body _ h1' h2' h3']
  rw [List.map_map]
  exact List.map_eq_map_iff.mpr (fun c _ => normCell_idem c)

/-- Witness for C1_roundtrip_amended: the two-cell worksheet of the spec §8
scenario, with all hypotheses discharged by evaluation. -/
theorem C1_roundtrip_witness :
    ([CellM.compute (PyVal.int 0) ['2', '+', '3'] ['5'],
      CellM.compute (PyVal.int 10) ['2', '+', '8'] ['1', '0']] ≠ ([] : List CellM)) ∧
    (∀ c ∈ [CellM.compute (PyVal.int 0) ['2', '+', '3'] ['5'],
      CellM.compute (PyVal.int 10) ['2', '+', '8'] ['1', '0']], CleanCell c) ∧
    (([CellM.compute (PyVal.int 0) ['2', '+', '3'] ['5'],
      CellM.compute (PyVal.int 10) ['2', '+', '8'] ['1', '0']].map CellM.cid).Nodup) ∧
    (editSaveCells (body [CellM.compute (PyVal.int 0) ['2', '+', '3'] ['5'],
        CellM.compute (PyVal.int 10) ['2', '+', '8'] ['1', '0']]) =
      [CellM.compute (PyVal.int 0) ['2', '+', '3'] ['5'],
        CellM.compute (PyVal.int 10) ['2', '+', '8'] ['1', '0']].map normCell ∧
     body ([CellM.compute (PyVal.int 0) ['2', '+', '3'] ['5'],
        CellM.compute (PyVal.int 10) ['2', '+', '8'] ['1', '0']].map normCell) =
      body [CellM.compute (PyVal.int 0) ['2', '+', '3'] ['5'],
        CellM.compute (PyVal.int 10) ['2', '+', '8'] ['1', '0']] ∧
     editSaveCells (body (editSaveCells (body [CellM.compute (PyVal.int 0) ['2', '+', '3'] ['5'],
        CellM.compute (PyVal.int 10) ['2', '+', '8'] ['1', '0']]))) =
      editSaveCells (body [CellM.compute (PyVal.int 0) ['2', '+', '3'] ['5'],
        CellM.compute (PyVal.int 10) ['2', '+', '8'] ['1', '0']])) :=
  ⟨by decide, by decide, by decide,
    C1_roundtrip_amended _ (by decide) (by decide) (by decide)⟩
